import Mathlib

/-!
Verification of the i18n refactor-and-translate pipeline of `nextjs-utils`.

The development shallowly embeds the JavaScript sources:
  * `makeMultilingual.js` — the main setup script (`deepMerge`-free variant:
    `processFiles`, `extractUsedKeys`, `sanitizeCode`, `processFileWithOpenAI`,
    `updateCommonJson`, `autoTranslateCommonJson`, `openaiTranslateText`, `main`);
  * the stand-alone translator script (`src/unnamed/part_002`:
    `findMissingKeys`, `deepMerge`, `translateMissingKeys`).

JavaScript objects are modelled as ordered association lists with unique keys
(insertion order is observable through `Object.entries`, and property
assignment keeps the position of an existing key).  Values are strings,
numbers, and objects — the only shapes the dictionaries of this repository
use.  Two pieces of JavaScript semantics that the sources rely on are modelled
explicitly, because the tree-walking functions do hit them:
  * reading a property of a primitive boxes it: a string answers
    `hasOwnProperty` for its canonical numeric indices and for `"length"`;
  * assigning a property to a primitive (sloppy mode) is silently discarded;
  * `x || {}` takes `x` unless `x` is falsy (`""`, `0`, `undefined`).
The AI endpoint, `JSON.parse` of its free-text replies, and the filesystem are
external collaborators; they are modelled at their boundary by oracles and by
explicit effect traces.
-/

namespace I18n

/-- A JavaScript value as used by the locale-dictionary code: a string, a
number, or an object (ordered association list of properties). -/
inductive JVal : Type where
  | str : String → JVal
  | num : Nat → JVal
  | obj : List (String × JVal) → JVal

mutual

def decEqJVal : (a b : JVal) → Decidable (a = b)
  | .str a, .str b =>
      if h : a = b then .isTrue (by rw [h]) else .isFalse (by simp [h])
  | .num a, .num b =>
      if h : a = b then .isTrue (by rw [h]) else .isFalse (by simp [h])
  | .obj a, .obj b =>
      match decEqJValList a b with
      | .isTrue h => .isTrue (by rw [h])
      | .isFalse h => .isFalse (by simp [h])
  | .str _, .num _ => .isFalse (fun h => JVal.noConfusion h)
  | .str _, .obj _ => .isFalse (fun h => JVal.noConfusion h)
  | .num _, .str _ => .isFalse (fun h => JVal.noConfusion h)
  | .num _, .obj _ => .isFalse (fun h => JVal.noConfusion h)
  | .obj _, .str _ => .isFalse (fun h => JVal.noConfusion h)
  | .obj _, .num _ => .isFalse (fun h => JVal.noConfusion h)

def decEqJValList : (a b : List (String × JVal)) → Decidable (a = b)
  | [], [] => .isTrue rfl
  | [], _ :: _ => .isFalse (fun h => List.noConfusion h)
  | _ :: _, [] => .isFalse (fun h => List.noConfusion h)
  | (k, v) :: r, (k2, v2) :: r2 =>
      if hk : k = k2 then
        match decEqJVal v v2 with
        | .isTrue hv =>
            match decEqJValList r r2 with
            | .isTrue hr => .isTrue (by rw [hk, hv, hr])
            | .isFalse hr => .isFalse (by simp [hr])
        | .isFalse hv => .isFalse (by simp [hv])
      else .isFalse (by simp [hk])

end

instance : DecidableEq JVal := decEqJVal

/-- Property lookup in an object's entry list (first occurrence). -/
def jlookup : List (String × JVal) → String → Option JVal
  | [], _ => none
  | (k, v) :: rest, key => if k = key then some v else jlookup rest key

/-- `target[key] = v` on an entry list: replace in place if the key exists
(JavaScript keeps the property's position), otherwise append. -/
def setKey {α : Type} : List (String × α) → String → α → List (String × α)
  | [], key, v => [(key, v)]
  | (k, w) :: rest, key, v =>
      if k = key then (k, v) :: rest else (k, w) :: setKey rest key v

/-- `target[key] = v` on any value: a property assignment to a primitive is
silently discarded in sloppy mode. -/
def jsSet : JVal → String → JVal → JVal
  | .obj kvs, k, v => .obj (setKey kvs k v)
  | t, _, _ => t

/-- JavaScript truthiness of the modelled values. -/
def truthy : JVal → Bool
  | .str s => !(s == "")
  | .num n => !(n == 0)
  | .obj _ => true

/-- Is the value an object (`typeof v === "object"`; arrays do not occur in
the modelled dictionaries, so the `!Array.isArray` conjunct is vacuous)? -/
def isObjB : JVal → Bool
  | .obj _ => true
  | _ => false

/-- JavaScript `String.prototype.trim()`, modelled on the character list
(the sources only meet ASCII whitespace). -/
def jsTrim (s : String) : String :=
  (((s.toList.dropWhile Char.isWhitespace).reverse.dropWhile
      Char.isWhitespace).reverse).asString

/-- A canonical array-index property name: a non-empty digit string with no
leading zero, together with its numeric value. -/
def isCanonicalIndex (k : String) : Option Nat :=
  let cs := k.toList
  if !cs.isEmpty && cs.all Char.isDigit && (cs == ['0'] || !(cs.headD '0' == '0')) then
    some (cs.foldl (fun acc c => 10 * acc + (c.toNat - 48)) 0)
  else none

/-- `Object.entries` of a boxed string: one single-character entry per index. -/
def strCharEntries (s : String) : List (String × JVal) :=
  s.toList.enum.map fun ic => (toString ic.1, JVal.str (String.mk [ic.2]))

/-- Own-property read `t[k]` (also the value `t.hasOwnProperty(k)` consults):
objects look the key up; a boxed string owns its canonical indices and
`"length"`; a boxed number owns nothing. -/
def jsGetOwn : JVal → String → Option JVal
  | .obj kvs, k => jlookup kvs k
  | .str s, k =>
      if k == "length" then some (.num s.length)
      else
        match isCanonicalIndex k with
        | some n =>
            if n < s.length then some (.str (String.mk [s.toList.getD n ' ']))
            else none
        | none => none
  | .num _, _ => none

/-- The idiom `t[k] || {}`: the property's value unless it is absent or
falsy, in which case a fresh empty object. -/
def getOrEmpty (t : JVal) (k : String) : JVal :=
  match jsGetOwn t k with
  | some v => if truthy v then v else .obj []
  | none => .obj []

/-- `Object.entries` on any value. -/
def entriesOf : JVal → List (String × JVal)
  | .obj kvs => kvs
  | .str s => strCharEntries s
  | .num _ => []

/-- The body of `deepMerge` (part_002 lines 175–184), iterating the source's
entries: an object-valued source entry is merged recursively into
`target[key] || {}`, any other value is assigned directly. -/
def deepMergeEntries : JVal → List (String × JVal) → JVal
  | t, [] => t
  | t, (k, JVal.obj kvs2) :: rest =>
      deepMergeEntries (jsSet t k (deepMergeEntries (getOrEmpty t k) kvs2)) rest
  | t, (k, v) :: rest => deepMergeEntries (jsSet t k v) rest

/-- `deepMerge(target, source)` (part_002 lines 175–184), modelled purely:
the in-place mutation of `target` becomes the returned value. -/
def deepMerge (t src : JVal) : JVal :=
  match src with
  | .obj kvs => deepMergeEntries t kvs
  | .str s => (strCharEntries s).foldl (fun acc kv => jsSet acc kv.1 kv.2) t
  | .num _ => t

/-- The accumulator update of `findMissingKeys`:
`let current = missing; for (p of path) current = current[p] = current[p] || {};
current[key] = value;` — navigate/create the path inside `missing`, then set
the key.  Writing through a primitive is discarded, as in sloppy mode. -/
def addAtPath : JVal → List String → String → JVal → JVal
  | m, [], key, v => jsSet m key v
  | m, p :: rest, key, v => jsSet m p (addAtPath (getOrEmpty m p) rest key v)

/-- The recursive walk of `findMissingKeys` (part_002 lines 105–116) over the
reference entries: a key the target does not own is copied (with its whole
subtree) into `missing` at the current path; an object-valued key the target
owns is walked recursively against the target's value. -/
def fmkGo : List (String × JVal) → JVal → List String → JVal → JVal
  | [], _, _, missing => missing
  | (key, JVal.obj kvs) :: rest, targ, path, missing =>
      let missing' :=
        match jsGetOwn targ key with
        | none => addAtPath missing path key (.obj kvs)
        | some tv => fmkGo kvs tv (path ++ [key]) missing
      fmkGo rest targ path missing'
  | (key, value) :: rest, targ, path, missing =>
      let missing' :=
        match jsGetOwn targ key with
        | none => addAtPath missing path key value
        | some _ => missing
      fmkGo rest targ path missing'

/-- `findMissingKeys(reference, target)` (part_002 lines 102–120). -/
def findMissingKeys (reference target : JVal) : JVal :=
  fmkGo (entriesOf reference) target [] (.obj [])

/-! ### Specification-side predicates on dictionary trees -/

/-- Does the key path exist in the tree (descending through object nodes)? -/
def pathExists : JVal → List String → Bool
  | _, [] => true
  | .obj kvs, k :: rest =>
      match jlookup kvs k with
      | some v => pathExists v rest
      | none => false
  | _, _ :: _ => false

/-- Does the key path exist and end at a leaf (non-object) value? -/
def leafPathB : JVal → List String → Bool
  | t, [] => !(isObjB t)
  | .obj kvs, k :: rest =>
      match jlookup kvs k with
      | some v => leafPathB v rest
      | none => false
  | _, _ :: _ => false

/-- The value stored at a key path, when the path exists. -/
def valueAt : JVal → List String → Option JVal
  | t, [] => some t
  | .obj kvs, k :: rest =>
      match jlookup kvs k with
      | some v => valueAt v rest
      | none => none
  | _, _ :: _ => none

/-- The keys of an entry list, in order. -/
def keysOf {α : Type} (kvs : List (String × α)) : List String := kvs.map Prod.fst

/-- Are the strings pairwise distinct? -/
def nodupBy : List String → Bool
  | [] => true
  | k :: rest => !(rest.contains k) && nodupBy rest

mutual

/-- Every object node of the tree has pairwise-distinct keys — an invariant
of every JavaScript object, hence of everything `JSON.parse` yields. -/
def wfKeys : JVal → Bool
  | .str _ => true
  | .num _ => true
  | .obj kvs => nodupBy (keysOf kvs) && wfKeysList kvs

/-- `wfKeys` for every value of an entry list. -/
def wfKeysList : List (String × JVal) → Bool
  | [] => true
  | (_, v) :: rest => wfKeys v && wfKeysList rest

end

mutual

/-- A dictionary node: a leaf (string or number) or an object of
dictionary nodes. -/
def isDictNode : JVal → Bool
  | .str _ => true
  | .num _ => true
  | .obj kvs => isDictList kvs

def isDictList : List (String × JVal) → Bool
  | [] => true
  | (_, v) :: rest => isDictNode v && isDictList rest

end

/-- A locale dictionary: an object tree of leaves. -/
def isDict (t : JVal) : Bool :=
  match t with
  | .obj _ => isDictNode t
  | _ => false

mutual

/-- Structural compatibility of a reference against a target: wherever the
reference holds a nested object and the target has the same key, the target's
value is again an object (never a primitive that would be probed through
JavaScript string boxing). -/
def compat : JVal → JVal → Bool
  | .obj rkvs, .obj tkvs => compatList rkvs tkvs
  | .obj _, _ => false
  | _, _ => true

def compatList : List (String × JVal) → List (String × JVal) → Bool
  | [], _ => true
  | (k, v) :: rest, tkvs =>
      (match v with
       | .obj _ =>
           match jlookup tkvs k with
           | some tv => compat v tv
           | none => true
       | _ => true) && compatList rest tkvs

end

/-- Chained own-property reads along a path (the target pointer that
`findMissingKeys`' recursion carries). -/
def navOwn : JVal → List String → Option JVal
  | t, [] => some t
  | t, k :: rest =>
      match jsGetOwn t k with
      | some v => navOwn v rest
      | none => none

/-- Coverage of a reference entry list by a target value: the recursive walk
of `findMissingKeys` adds nothing to `missing` exactly when every reference
key is an own property of the target and every object-valued entry is in turn
covered by the target\x27s value at that key. -/
def coveredList : List (String × JVal) → JVal → Bool
  | [], _ => true
  | (k, JVal.obj kvs2) :: rest, t =>
      (match jsGetOwn t k with
       | some tv => coveredList kvs2 tv
       | none => false) && coveredList rest t
  | (k, _) :: rest, t => (jsGetOwn t k).isSome && coveredList rest t

/-! ### `makeMultilingual.js`: code sanitization and used-key extraction -/

/-- The backtick character (code-fence marker). -/
def btick : Char := Char.ofNat 96

/-- The double-quote character. -/
def dquoteC : Char := Char.ofNat 34

/-- The single-quote character. -/
def squoteC : Char := Char.ofNat 39

/-- The leading alternative of `sanitizeCode`'s regex
`/^\s*BTB[a-zA-Z]*\s*|\s*BTB$/g` (writing `BTB` for a triple backtick):
anchored at the start, whitespace, a triple backtick, a language tag, and
trailing whitespace are removed; if no fence is present nothing is removed.
JavaScript's `\s` is modelled by `Char.isWhitespace` (the sources only produce
ASCII whitespace around fences). -/
def stripLeadFence (cs : List Char) : List Char :=
  match cs.dropWhile Char.isWhitespace with
  | a :: b :: c :: rest =>
      if a == btick && b == btick && c == btick then
        (rest.dropWhile Char.isAlpha).dropWhile Char.isWhitespace
      else cs
  | _ => cs

/-- The trailing alternative of the same regex: whitespace followed by a
triple backtick at the very end of the string is removed. -/
def stripTrailFence (cs : List Char) : List Char :=
  match cs.reverse with
  | a :: b :: c :: rest =>
      if a == btick && b == btick && c == btick then
        (rest.dropWhile Char.isWhitespace).reverse
      else cs
  | _ => cs

/-- `sanitizeCode` (makeMultilingual.js lines 950–956): strip code fences,
then guarantee a trailing newline. -/
def sanitizeCode (output : String) : String :=
  let cs := stripTrailFence (stripLeadFence output.toList)
  if cs.getLast? = some '\n' then cs.asString else (cs ++ ['\n']).asString

/-- `validateUpdatedCode` (lines 958–964): the updated code must not be
empty or whitespace-only. -/
def validateUpdatedCode (newCode : String) : Bool :=
  !(jsTrim newCode == "")

/-- One attempted match of the regex `/t\((["'])([^"']+)\1\)/` at the head of
the character list: literal `t(`, an opening quote, a non-empty run free of
either quote character, the same closing quote, and `)`.  Returns the
captured key and the characters after the match. -/
def matchKeyAt : List Char → Option (String × List Char)
  | 't' :: '(' :: q :: rest =>
      if q == dquoteC || q == squoteC then
        let run := rest.takeWhile fun c => !(c == dquoteC || c == squoteC)
        match rest.drop run.length with
        | q2 :: ')' :: tail =>
            if run.length > 0 && q2 == q then some (run.asString, tail) else none
        | _ => none
      else none
  | _ => none

/-- The global-regex scan of `extractUsedKeys`: try to match at each
position; after a match continue after it, otherwise advance one character.
The JavaScript `Set` is modelled as the list of matches (membership is all
the callers consult). -/
def scanKeys : Nat → List Char → List String
  | 0, _ => []
  | _, [] => []
  | fuel + 1, c :: rest =>
      match matchKeyAt (c :: rest) with
      | some kt => kt.1 :: scanKeys fuel kt.2
      | none => scanKeys fuel rest

/-- `extractUsedKeys` (lines 666–674): every translation key invoked through
the `t("...")` / `t('...')` lookup pattern in the given source text.  The
fuel — the input length — is an upper bound on the scanner's steps
(`matchKeyAt_lt`), so it never runs out before the input does. -/
def extractUsedKeys (code : String) : List String :=
  scanKeys code.toList.length code.toList

/-! ### `makeMultilingual.js`: task prompts -/

/-- The REFACTOR task prompt (lines 798–829), after the template's
`.trim()`. -/
def refactorTaskPrompt : String :=
  String.intercalate "\n"
    [ "You are a Next.js and i18n expert using the \"next-intl\" package."
    , "You will receive a Next.js file that may or may not contain user-facing strings."
    , ""
    , "Follow these rules carefully:"
    , "1. Identify all user-facing strings, including:"
    , "   - Static text within JSX elements."
    , "   - Text within attributes (e.g., alt, title)."
    , "   - Dynamic strings constructed using template literals or string concatenation."
    , "2. Replace identified strings with \x60t(\x27namespace.key\x27)\x60 using \x60useTranslations(\x27namespace\x27)\x60 from next-intl."
    , "   - For pluralization, use the appropriate next-intl formatting methods."
    , "3. Add an import statement for \x60useTranslations\x60 from \x60\"next-intl\"\x60 if not present."
    , "4. Organize translation keys hierarchically based on the file structure or component hierarchy for better maintainability."
    , "5. Add a \"translations\" object mapping each new key to its original string."
    , "   - Ensure that dynamic parts of strings are represented using placeholders."
    , "6. Do NOT modify existing comments, formatting, console.log statements, or any code not strictly related to end-user-facing text."
    , "7. If partial i18n exists, reuse existing keys for matching strings; do not duplicate or rename them."
    , "8. If no changes are needed, set \"needsUpdate\" to false and leave \"updatedCode\" empty."
    , "9. Return ONLY valid JSON, with no code fences or extra commentary."
    , "10. The JSON structure must be:"
    , ""
    , "\x7b"
    , "  \"needsUpdate\": true | false,"
    , "  \"updatedCode\": \"<entire updated file if needed or empty string>\","
    , "  \"translations\": \x7b"
    , "    \"namespace.key\": \"Original string\","
    , "    ..."
    , "  \x7d"
    , "\x7d"
    , ""
    , "11. The updated code must compile, preserve functionality, and keep all existing comments intact."
    ]

/-- The correction notice prepended when the prompt is built with a positive
retry count (lines 941–944). -/
def retryNotice : String :=
  "IMPORTANT: The previous attempt failed to produce valid JSON. Ensure that your response strictly follows the JSON structure without any additional text, code fences, or commentary. Please adhere to the following format:\n\n"

/-- `getTaskPrompt(REFACTOR, fileContent, retryCount)` (lines 795–947),
specialized to the REFACTOR task used by `processFiles` (the FIX_ERROR and
EXTRACT_ERRORS branches, and the previous-fix-intents section — which the
REFACTOR callers never populate — are outside the verified claims). -/
def getTaskPrompt (fileContent : String) (retryCount : Nat) : String :=
  let prompt :=
    refactorTaskPrompt ++
      (if fileContent == "" then ""
       else "\n\nHere is the code/log content:\n" ++ fileContent ++ "\n")
  if retryCount > 0 then retryNotice ++ prompt else prompt

/-! ### `makeMultilingual.js`: the AI completion client with retry

The AI endpoint and `JSON.parse` over its free-text reply are external
collaborators; a per-attempt oracle describes, for each attempt number, what
the round trip produced: a transport failure, a success without content, a
completion that `JSON.parse` rejects, or a parsed response object. -/

/-- The parsed REFACTOR response object. -/
structure RefactorResult where
  needsUpdate : Bool
  updatedCode : String
  translations : List (String × String)
deriving DecidableEq

/-- The outcome of one round trip to the chat-completions endpoint. -/
inductive ApiResp where
  | httpError : Nat → String → ApiResp
  | noContent : ApiResp
  | badJson : ApiResp
  | json : RefactorResult → ApiResp
deriving DecidableEq

/-- The errors `processFileWithOpenAI` can throw. -/
inductive FileError where
  | apiError : Nat → String → FileError
  | noContent : FileError
  | parseFailed : FileError
  | validationFailed : FileError
deriving DecidableEq

/-- One attempt of `processFileWithOpenAI` (lines 676–735), with the
per-attempt oracle in place of `fetch`.  Alongside the result it returns the
instruction string sent on each attempt: the source re-invokes itself with
the *same* `prompt` argument, so each list entry is that prompt.  A transport
error or missing content throws at once; a reply that fails `JSON.parse`, or
an update whose sanitized code fails validation, is retried while
`retryCount < 2`.  That guard is carried as the equivalent structural count
of remaining retries, `retriesLeft = 2 - retryCount` (so `retryCount < 2`
iff `retriesLeft` is a successor, and the recursive call at `retryCount + 1`
has one fewer retry left). -/
def processFileAttempt (prompt : String) (api : Nat → ApiResp) :
    Nat → Nat → Except FileError RefactorResult × List String
  | retryCount, retriesLeft =>
    match api retryCount with
    | .httpError s b => (.error (.apiError s b), [prompt])
    | .noContent => (.error .noContent, [prompt])
    | .badJson =>
        match retriesLeft with
        | left + 1 =>
            let r := processFileAttempt prompt api (retryCount + 1) left
            (r.1, prompt :: r.2)
        | 0 => (.error .parseFailed, [prompt])
    | .json parsed =>
        if parsed.needsUpdate then
          let code := sanitizeCode parsed.updatedCode
          if validateUpdatedCode code then
            (.ok { parsed with updatedCode := code }, [prompt])
          else
            match retriesLeft with
            | left + 1 =>
                let r := processFileAttempt prompt api (retryCount + 1) left
                (r.1, prompt :: r.2)
            | 0 => (.error .validationFailed, [prompt])
        else (.ok parsed, [prompt])

/-- `processFileWithOpenAI(prompt, filePath, retryCount)` (lines 676–735):
run the attempt with its `2 - retryCount` remaining retries. -/
def processFileWithOpenAI (prompt : String) (api : Nat → ApiResp)
    (retryCount : Nat) : Except FileError RefactorResult × List String :=
  processFileAttempt prompt api retryCount (2 - retryCount)

instance : DecidableEq (Except FileError RefactorResult) := fun a b =>
  match a, b with
  | .ok x, .ok y =>
      if h : x = y then .isTrue (by rw [h]) else .isFalse (by simp [h])
  | .error x, .error y =>
      if h : x = y then .isTrue (by rw [h]) else .isFalse (by simp [h])
  | .ok _, .error _ => .isFalse (fun h => Except.noConfusion h)
  | .error _, .ok _ => .isFalse (fun h => Except.noConfusion h)

/-! ### `makeMultilingual.js`: file processing and key aggregation -/

/-- Effects of the pipeline on the outside world. -/
inductive Effect where
  | aiCall : Effect
  | writeSource : String → String → Effect
  | writeLocaleDict : String → Effect
deriving DecidableEq

/-- One file to refactor: its path, its current content, and the oracle for
its AI round trips. -/
structure FileTask where
  path : String
  content : String
  api : Nat → ApiResp

/-- The per-file outcome inside `processFiles`' batch loop. -/
inductive FileOutcome where
  | failed : FileError → FileOutcome
  | updated : List (String × String) → FileOutcome
  | noUpdate : FileOutcome
deriving DecidableEq

/-- The confirmed new keys a file outcome contributes to `allNewKeys`. -/
def outcomeKeys : FileOutcome → List (String × String)
  | .updated ks => ks
  | _ => []

/-- One iteration of `processFiles`' `batch.map` body (lines 623–643): build
the prompt with retry count 0, call the client, and on `needsUpdate` write
the (already sanitized) code back and keep exactly the proposed translations
whose keys `extractUsedKeys` finds in the committed content.  Errors are
caught per file.  Each attempt of the client is one network call. -/
def processOneFile (t : FileTask) : FileOutcome × List Effect :=
  let pr := processFileWithOpenAI (getTaskPrompt t.content 0) t.api 0
  let calls := pr.2.map fun _ => Effect.aiCall
  match pr.1 with
  | .error e => (.failed e, calls)
  | .ok r =>
      if r.needsUpdate then
        (.updated (r.translations.filter fun kv =>
            (extractUsedKeys r.updatedCode).contains kv.1),
         calls ++ [Effect.writeSource t.path r.updatedCode])
      else (.noUpdate, calls)

/-- The `allNewKeys` accumulation across files (`allNewKeys[k] = originalText`
per confirmed key).  Completion order inside a concurrent batch is
nondeterministic in the source; it is modelled in file order, which is
irrelevant to the claims (they consult only membership/emptiness). -/
def aggregateNewKeys (outs : List FileOutcome) : List (String × String) :=
  outs.foldl
    (fun acc o =>
      match o with
      | .updated ks => ks.foldl (fun a kv => setKey a kv.1 kv.2) acc
      | _ => acc)
    []

/-- The dictionary written by `updateCommonJson` (lines 653–664) for one
locale: `{ ...currentTranslations, ...newKeys }`. -/
def updateCommonJsonDict (current : List (String × JVal))
    (newKeys : List (String × String)) : List (String × JVal) :=
  newKeys.foldl (fun acc kv => setKey acc kv.1 (.str kv.2)) current

/-- `processFiles(files)` (lines 613–651): process every file (batching only
bounds concurrency; every file is processed), then rewrite every locale's
`common.json` — but only when at least one new key was confirmed. -/
def processFiles (files : List FileTask) (locales : List String) :
    List FileOutcome × List Effect :=
  let outs := files.map fun t => (processOneFile t).1
  let fx := (files.map fun t => (processOneFile t).2).flatten
  let newKeys := aggregateNewKeys outs
  (outs, fx ++ if newKeys.isEmpty then [] else locales.map Effect.writeLocaleDict)

/-! ### `makeMultilingual.js`: per-leaf auto-translation -/

/-- Outcome of one `openaiTranslateText` round trip: an HTTP success carrying
the optional completion content, or a thrown transport/parse error. -/
inductive TransResult where
  | ok : Option String → TransResult
  | err : TransResult
deriving DecidableEq

/-- The tail of `openaiTranslateText` (lines 1065–1068):
`result?.choices?.[0]?.message?.content?.trim()` followed by
`translation || text` — a missing or whitespace-only completion falls back
to the original text. -/
def openaiTranslateText (completion : Option String) (text : String) : String :=
  match completion with
  | some c => if jsTrim c = "" then text else jsTrim c
  | none => text

/-- Did the translation of one leaf fail to produce usable text: a thrown
call, a missing completion, or a whitespace-only completion? -/
def translationFailed : TransResult → Bool
  | .err => true
  | .ok none => true
  | .ok (some c) => jsTrim c == ""

/-- The keys of the default dictionary that `translateLocale` sends to the
endpoint: the truthy string-valued ones. -/
def sentKeys (defaultData : List (String × JVal)) : List String :=
  keysOf (defaultData.filter fun kv =>
    match kv.2 with
    | .str s => !(s == "")
    | _ => false)

/-- The per-entry body of `translateLocale` inside `autoTranslateCommonJson`
(lines 992–1003): a falsy (`""`) or non-string value is copied verbatim
(`if (!value || typeof value !== 'string')`); a truthy string is translated,
a thrown call falling back to the original value. -/
def translateValue (resp : String → TransResult) (k : String) : JVal → JVal
  | .str s =>
      if s = "" then .str s
      else
        .str (match resp k with
          | .ok c => openaiTranslateText c s
          | .err => s)
  | v => v

/-- The entry loop of `translateLocale` (lines 992–1004):
`translations[key] = ...` for every entry of the default dictionary. -/
def translateLocale (resp : String → TransResult)
    (defaultData : List (String × JVal)) : List (String × JVal) :=
  defaultData.map fun kv => (kv.1, translateValue resp kv.1 kv.2)

/-- JavaScript object spread `{ ...existing, ...incoming }`: for shared keys
the incoming value wins (keeping the existing position); new keys are
appended in order. -/
def spreadMerge (existing incoming : List (String × JVal)) :
    List (String × JVal) :=
  incoming.foldl (fun acc kv => setKey acc kv.1 kv.2) existing

/-- The dictionary `autoTranslateCommonJson` writes for one locale
(lines 1019–1027): `{ ...existing, ...translationsPerLocale[locale] }`. -/
def autoTranslateMergedDict (resp : String → TransResult)
    (existing defaultData : List (String × JVal)) : List (String × JVal) :=
  spreadMerge existing (translateLocale resp defaultData)

/-- The network calls of `translateLocale`: one per truthy string-valued
entry of the default dictionary (the call happens whether or not it
succeeds). -/
def translateLocaleCalls (defaultData : List (String × JVal)) : List Effect :=
  (defaultData.filter fun kv =>
      match kv.2 with
      | .str s => !(s == "")
      | _ => false).map fun _ => Effect.aiCall

/-- The effects of `autoTranslateCommonJson` (lines 969–1028): nothing if the
default `common.json` is absent or empty; otherwise the translation calls for
every additional locale followed by one dictionary write per additional
locale.  The function never consults the dry-run flag. -/
def autoTranslateCommonJsonEffects (defaultCommon : Option (List (String × JVal)))
    (additionalLocales : List String) : List Effect :=
  match defaultCommon with
  | none => []
  | some dd =>
      if dd.isEmpty then []
      else
        (additionalLocales.map fun _ => translateLocaleCalls dd).flatten ++
          additionalLocales.map Effect.writeLocaleDict

/-! ### `makeMultilingual.js`: the pipeline driver -/

/-- The effects of `stepCreateLocalesFolder` (lines 284–302): a `'{}'`
dictionary file is created for every locale that does not have one yet
(independently of the dry-run flag). -/
def stepCreateLocalesFolderEffects (allLocales : List String)
    (commonExists : String → Bool) : List Effect :=
  (allLocales.filter fun l => !(commonExists l)).map Effect.writeLocaleDict

/-- `runRefactorAndTranslations` (lines 525–567): under `--dry-run` the cost
estimate is printed (no network) and the function returns `undefined`; in
interactive mode a declined confirmation also returns `undefined`; otherwise
the eligible files are returned for processing. -/
def runRefactorAndTranslations (dryRun unattended proceedAnswer : Bool)
    (eligibleFiles : List FileTask) : Option (List FileTask) × List Effect :=
  if dryRun then (none, [])
  else if !unattended && !proceedAnswer then (none, [])
  else (some eligibleFiles, [])

/-- The configuration and project state `main` runs against. -/
structure PipelineInput where
  dryRun : Bool
  unattended : Bool
  proceedAnswer : Bool
  allLocales : List String
  defaultLocale : String
  commonExists : String → Bool
  eligibleFiles : List FileTask
  autoDefaultCommon : Option (List (String × JVal))

/-- The effect trace of `main`'s i18n steps 3–5 (lines 1163–1214): create the
locales folder, run discovery/refactor, then *unconditionally* run
`autoTranslateCommonJson`.  (Steps 6–8 — LanguagePicker creation, dependency
installation, the build loop — are outside the claims and would only add
further effects.) -/
def mainPipelineEffects (inp : PipelineInput) : List Effect :=
  let fx3 := stepCreateLocalesFolderEffects inp.allLocales inp.commonExists
  let rr := runRefactorAndTranslations inp.dryRun inp.unattended
    inp.proceedAnswer inp.eligibleFiles
  let fx4 :=
    match rr.1 with
    | some fs => if fs.isEmpty then [] else (processFiles fs inp.allLocales).2
    | none => []
  let fx5 := autoTranslateCommonJsonEffects inp.autoDefaultCommon
    (inp.allLocales.filter fun l => !(l == inp.defaultLocale))
  fx3 ++ rr.2 ++ fx4 ++ fx5

/-! ### JSON serialization of the dictionary writes -/

/-- `n` spaces. -/
def spacesStr (n : Nat) : String := (List.replicate n ' ').asString

/-- A lowercase hexadecimal digit. -/
def hexDigit (n : Nat) : Char :=
  if n < 10 then Char.ofNat (48 + n) else Char.ofNat (87 + n)

/-- `JSON.stringify`'s escaping of one string character. -/
def jsonEscapeChar (c : Char) : String :=
  if c == dquoteC then "\\\""
  else if c == '\\' then "\\\\"
  else if c == '\x08' then "\\b"
  else if c == '\t' then "\\t"
  else if c == '\n' then "\\n"
  else if c == '\x0c' then "\\f"
  else if c == '\r' then "\\r"
  else if c.toNat < 32 then
    "\\u00" ++ [hexDigit (c.toNat / 16), hexDigit (c.toNat % 16)].asString
  else [c].asString

/-- A JSON string literal. -/
def jsonQuote (s : String) : String :=
  "\"" ++ String.join (s.toList.map jsonEscapeChar) ++ "\""

mutual

/-- `JSON.stringify(v, null, 2)` at the given current indentation. -/
def jsonStringify : Nat → JVal → String
  | _, .str s => jsonQuote s
  | _, .num n => Nat.repr n
  | _, .obj [] => "\x7b\x7d"
  | ind, .obj (kv :: rest) =>
      "\x7b\n" ++ jsonMembers (ind + 2) (kv :: rest) ++ "\n" ++ spacesStr ind ++ "\x7d"

def jsonMembers : Nat → List (String × JVal) → String
  | _, [] => ""
  | ind, [kv] => spacesStr ind ++ jsonQuote kv.1 ++ ": " ++ jsonStringify ind kv.2
  | ind, kv :: kv2 :: rest =>
      spacesStr ind ++ jsonQuote kv.1 ++ ": " ++ jsonStringify ind kv.2 ++ ",\n" ++
        jsonMembers ind (kv2 :: rest)

end

/-- The file content `translateMissingKeys` writes (part_002 lines 155–158):
`JSON.stringify(merged, null, 2) + '\n'`. -/
def translateMissingKeysFileContent (merged : JVal) : String :=
  jsonStringify 0 merged ++ "\n"

/-- The file content `updateCommonJson` writes (makeMultilingual.js line 661):
`JSON.stringify(updated, null, 2)` — with no trailing newline. -/
def updateCommonJsonFileContent (updated : List (String × JVal)) : String :=
  jsonStringify 0 (.obj updated)

/-- The file content `autoTranslateCommonJson` writes (line 1026):
`JSON.stringify(merged, null, 2)` — with no trailing newline. -/
def autoTranslateFileContent (merged : List (String × JVal)) : String :=
  jsonStringify 0 (.obj merged)

/-- Property lookup on a value: objects look the key up, primitives have no
(ordinary) properties. -/
def jlookupV (t : JVal) (k : String) : Option JVal :=
  match t with
  | .obj kvs => jlookup kvs k
  | _ => none

/-- The property keys of a value, in order. -/
def keysV (t : JVal) : List String :=
  match t with
  | .obj kvs => keysOf kvs
  | _ => []

end I18n

namespace I18n

/-! ## Helper lemmas about entry lists -/

theorem jlookup_setKey_self (l : List (String × JVal)) (k : String) (v : JVal) :
    jlookup (setKey l k v) k = some v := by
  induction l with
  | nil => simp [setKey, jlookup]
  | cons kv rest ih =>
      obtain ⟨k1, v1⟩ := kv
      by_cases h : k1 = k
      · simp [setKey, h, jlookup]
      · simp [setKey, h, jlookup, ih]

theorem jlookup_setKey_ne (l : List (String × JVal)) (k k2 : String) (v : JVal)
    (h : k ≠ k2) : jlookup (setKey l k v) k2 = jlookup l k2 := by
  induction l with
  | nil => simp [setKey, jlookup, h]
  | cons kv rest ih =>
      obtain ⟨k1, v1⟩ := kv
      by_cases h1 : k1 = k
      · subst h1
        simp [setKey, jlookup, h]
      · simp [setKey, h1, jlookup, ih]

theorem keysOf_setKey {α : Type} (l : List (String × α)) (k : String) (v : α) :
    keysOf (setKey l k v) = if k ∈ keysOf l then keysOf l else keysOf l ++ [k] := by
  induction l with
  | nil => simp [setKey, keysOf]
  | cons kv rest ih =>
      obtain ⟨k1, v1⟩ := kv
      by_cases h1 : k1 = k
      · subst h1
        simp [setKey, keysOf]
      · simp only [setKey, if_neg h1, keysOf, List.map_cons]
        rw [show keysOf (setKey rest k v) = (setKey rest k v).map Prod.fst from rfl] at ih
        by_cases hm : k ∈ keysOf rest
        · simp only [keysOf] at hm
          simp [hm, ih, keysOf, Ne.symm h1]
        · simp only [keysOf] at hm
          simp [hm, ih, keysOf, Ne.symm h1]

end I18n

namespace I18n

theorem spreadMerge_preserves_isSome (incoming : List (String × JVal))
    (existing : List (String × JVal)) (k : String)
    (h : (jlookup existing k).isSome = true) :
    (jlookup (spreadMerge existing incoming) k).isSome = true := by
  induction incoming generalizing existing with
  | nil => simpa [spreadMerge] using h
  | cons kv rest ih =>
      show (jlookup (spreadMerge (setKey existing kv.1 kv.2) rest) k).isSome = true
      apply ih
      by_cases hk : kv.1 = k
      · subst hk
        simp [jlookup_setKey_self]
      · rw [jlookup_setKey_ne _ _ _ _ hk]
        exact h

theorem spreadMerge_isSome_of_mem (incoming : List (String × JVal))
    (existing : List (String × JVal)) (k : String)
    (h : k ∈ keysOf incoming) :
    (jlookup (spreadMerge existing incoming) k).isSome = true := by
  induction incoming generalizing existing with
  | nil => simp [keysOf] at h
  | cons kv rest ih =>
      show (jlookup (spreadMerge (setKey existing kv.1 kv.2) rest) k).isSome = true
      simp only [keysOf, List.map_cons, List.mem_cons] at h
      rcases h with h | h
      · subst h
        apply spreadMerge_preserves_isSome
        simp [jlookup_setKey_self]
      · exact ih _ h

theorem jlookup_mapValues (g : String → JVal → JVal)
    (l : List (String × JVal)) (k : String) :
    jlookup (l.map fun kv => (kv.1, g kv.1 kv.2)) k = (jlookup l k).map (g k) := by
  induction l with
  | nil => simp [jlookup]
  | cons kv rest ih =>
      obtain ⟨k1, v1⟩ := kv
      by_cases h1 : k1 = k
      · subst h1
        simp [jlookup]
      · simp [jlookup, h1, ih]

theorem keysOf_translateLocale (resp : String → TransResult)
    (defaultData : List (String × JVal)) :
    keysOf (translateLocale resp defaultData) = keysOf defaultData := by
  simp [keysOf, translateLocale, List.map_map]

theorem jlookup_translateLocale_failed (resp : String → TransResult)
    (defaultData : List (String × JVal)) (k : String) (s : String)
    (hk : jlookup defaultData k = some (.str s))
    (hf : translationFailed (resp k) = true) :
    jlookup (translateLocale resp defaultData) k = some (.str s) := by
  rw [translateLocale, jlookup_mapValues, hk]
  simp only [Option.map_some']
  by_cases hs : s = ""
  · simp [translateValue, hs]
  · simp only [translateValue, if_neg hs, Option.some.injEq, JVal.str.injEq]
    cases hr : resp k with
    | err => rfl
    | ok c =>
        cases c with
        | none => rfl
        | some cc =>
            simp only [translationFailed, hr, beq_iff_eq] at hf
            simp [openaiTranslateText, hf]

theorem sentKeys_subset_keys (defaultData : List (String × JVal)) (k : String)
    (h : k ∈ sentKeys defaultData) : k ∈ keysOf defaultData := by
  simp only [sentKeys, keysOf, List.mem_map] at h ⊢
  obtain ⟨kv, hmem, hfst⟩ := h
  exact ⟨kv, List.mem_of_mem_filter hmem, hfst⟩

end I18n

namespace I18n

/-! ## Claim C8 -/

/-- C8: if translation of an individual leaf string for a target locale fails
(the translate call throws, or the endpoint returns an empty or missing
completion), that leaf is assigned the original-language text rather than
being left absent; the translated dictionary keeps exactly the default
dictionary's keys, and the merged target dictionary written for the locale
contains a value for every key that was sent for translation. -/
theorem C8_leaf_fallback (resp : String → TransResult)
    (defaultData existing : List (String × JVal)) (k : String) (s : String)
    (hk : jlookup defaultData k = some (.str s))
    (hf : translationFailed (resp k) = true) :
    jlookup (translateLocale resp defaultData) k = some (.str s)
    ∧ keysOf (translateLocale resp defaultData) = keysOf defaultData
    ∧ ∀ k2, k2 ∈ sentKeys defaultData →
        (jlookup (autoTranslateMergedDict resp existing defaultData) k2).isSome = true := by
  refine ⟨jlookup_translateLocale_failed resp defaultData k s hk hf,
    keysOf_translateLocale resp defaultData, ?_⟩
  intro k2 hk2
  unfold autoTranslateMergedDict
  apply spreadMerge_isSome_of_mem
  rw [keysOf_translateLocale]
  exact sentKeys_subset_keys defaultData k2 hk2

/-- C8 witness: a whitespace-only completion for `"greeting"` falls back to
the original `"Hola"`, and the merged dictionary still has the key. -/
theorem C8_leaf_fallback_witness :
    jlookup (translateLocale (fun _ => TransResult.ok (some "  "))
        [("greeting", JVal.str "Hola")]) "greeting" = some (JVal.str "Hola")
    ∧ (jlookup (autoTranslateMergedDict (fun _ => TransResult.ok (some "  "))
        [] [("greeting", JVal.str "Hola")]) "greeting").isSome = true :=
  ⟨(C8_leaf_fallback (fun _ => TransResult.ok (some "  "))
      [("greeting", JVal.str "Hola")] [] "greeting" "Hola" (by decide) (by decide)).1,
   (C8_leaf_fallback (fun _ => TransResult.ok (some "  "))
      [("greeting", JVal.str "Hola")] [] "greeting" "Hola" (by decide) (by decide)).2.2
      "greeting" (by decide)⟩

end I18n

namespace I18n

/-! ## Claim C2 -/

/-- C2: the claim says a dry run issues zero network calls and leaves all
dictionaries unchanged.  Evaluating `main`'s step sequence at a concrete
dry-run configuration (a project with one additional locale `"en"`, existing
dictionaries, and a non-empty default `common.json`) shows the pipeline still
issues an AI call and still rewrites the `"en"` dictionary, because
`autoTranslateCommonJson` runs unconditionally after the dry-run early return
of `runRefactorAndTranslations` — contradicting the script's own help text
(`--dry-run  Only calculate approximate token usage & cost, then exit (no
calls)`). -/
theorem C2_dry_run_still_calls_and_writes :
    (PipelineInput.dryRun
      { dryRun := true, unattended := true, proceedAnswer := false
      , allLocales := ["es", "en"], defaultLocale := "es"
      , commonExists := fun _ => true, eligibleFiles := []
      , autoDefaultCommon := some [("greeting", JVal.str "Hola")] } = true)
    ∧ Effect.aiCall ∈ mainPipelineEffects
      { dryRun := true, unattended := true, proceedAnswer := false
      , allLocales := ["es", "en"], defaultLocale := "es"
      , commonExists := fun _ => true, eligibleFiles := []
      , autoDefaultCommon := some [("greeting", JVal.str "Hola")] }
    ∧ Effect.writeLocaleDict "en" ∈ mainPipelineEffects
      { dryRun := true, unattended := true, proceedAnswer := false
      , allLocales := ["es", "en"], defaultLocale := "es"
      , commonExists := fun _ => true, eligibleFiles := []
      , autoDefaultCommon := some [("greeting", JVal.str "Hola")] } := by
  refine ⟨rfl, ?_, ?_⟩ <;> decide

/-! ## Claim C9 -/

/-- C9 counterexample: the claim says every locale dictionary file written by
the synchronizer ends with a trailing newline, but the content
`updateCommonJson` writes (makeMultilingual.js line 661) for the dictionary
`{"greeting": "Hola"}` does not end with a newline. -/
theorem C9_no_trailing_newline_cex :
    (updateCommonJsonFileContent [("greeting", JVal.str "Hola")]).toList.getLast?
      ≠ some '\n' := by
  decide

/-- C9 (amended): the dictionary files written by part_002's
`translateMissingKeys` are pretty-printed JSON with a trailing newline, while
the files written by makeMultilingual.js's `updateCommonJson` and
`autoTranslateCommonJson` are pretty-printed JSON ending in the closing
brace, with no trailing newline. -/
theorem C9_trailing_newline_amended :
    ∀ (merged : JVal) (updated : List (String × JVal)),
    (translateMissingKeysFileContent merged).toList.getLast? = some '\n'
    ∧ (updateCommonJsonFileContent updated).toList.getLast? = some (Char.ofNat 125)
    ∧ (autoTranslateFileContent updated).toList.getLast? = some (Char.ofNat 125) := by
  intro merged updated
  have hobj : ∀ kvs : List (String × JVal),
      (jsonStringify 0 (JVal.obj kvs)).toList.getLast? = some (Char.ofNat 125) := by
    intro kvs
    cases kvs with
    | nil => decide
    | cons kv rest =>
        show ("\x7b\n" ++ jsonMembers 2 (kv :: rest) ++ "\n" ++ spacesStr 0
          ++ "\x7d").data.getLast? = some (Char.ofNat 125)
        rw [String.data_append]
        exact List.getLast?_concat _
  refine ⟨?_, hobj updated, hobj updated⟩
  show (jsonStringify 0 merged ++ "\n").data.getLast? = some '\n'
  rw [String.data_append]
  exact List.getLast?_concat _

end I18n

namespace I18n

/-! ## Claim C10 -/

theorem aggregateNewKeys_nil (outs : List FileOutcome)
    (h : ∀ o ∈ outs, outcomeKeys o = []) :
    aggregateNewKeys outs = [] := by
  have hgen : ∀ (l : List FileOutcome) (acc : List (String × String)),
      (∀ o ∈ l, outcomeKeys o = []) →
      l.foldl
        (fun acc o =>
          match o with
          | FileOutcome.updated ks => ks.foldl (fun a kv => setKey a kv.1 kv.2) acc
          | _ => acc) acc = acc := by
    intro l
    induction l with
    | nil => intro acc _; rfl
    | cons o rest ih =>
        intro acc hl
        cases o with
        | updated ks =>
            have hks : ks = [] := hl _ (List.mem_cons_self _ _)
            rw [show ks = [] from hks]
            exact ih acc fun o ho => hl o (List.mem_cons_of_mem _ ho)
        | failed e => exact ih acc fun o ho => hl o (List.mem_cons_of_mem _ ho)
        | noUpdate => exact ih acc fun o ho => hl o (List.mem_cons_of_mem _ ho)
  exact hgen outs [] h

theorem processOneFile_no_dict_write (t : FileTask) (loc : String) :
    Effect.writeLocaleDict loc ∉ (processOneFile t).2 := by
  unfold processOneFile
  cases hres : (processFileWithOpenAI (getTaskPrompt t.content 0) t.api 0).1 with
  | error e =>
      simp only [hres]
      intro hmem
      obtain ⟨q, _, habs⟩ := List.mem_map.mp hmem
      exact Effect.noConfusion habs
  | ok r =>
      by_cases hu : r.needsUpdate
      · simp only [hres, if_pos hu]
        intro hmem
        rcases List.mem_append.mp hmem with hmem | hmem
        · obtain ⟨q, _, habs⟩ := List.mem_map.mp hmem
          exact Effect.noConfusion habs
        · rcases List.mem_singleton.mp hmem with habs
          exact Effect.noConfusion habs
      · simp only [hres, if_neg hu]
        intro hmem
        obtain ⟨q, _, habs⟩ := List.mem_map.mp hmem
        exact Effect.noConfusion habs

/-- C10: when no file contributed a confirmed key, `processFiles` writes no
locale dictionary file at all — every locale's `common.json` is left
untouched. -/
theorem C10_no_keys_no_dict_writes (files : List FileTask) (locales : List String)
    (h : ∀ o ∈ (processFiles files locales).1, outcomeKeys o = []) :
    ∀ loc, Effect.writeLocaleDict loc ∉ (processFiles files locales).2 := by
  intro loc hmem
  have hagg : aggregateNewKeys (files.map fun t => (processOneFile t).1) = [] := by
    apply aggregateNewKeys_nil
    intro o ho
    exact h o (by simpa [processFiles] using ho)
  simp only [processFiles, hagg, List.isEmpty_nil, if_pos] at hmem
  rw [List.append_nil] at hmem
  obtain ⟨l, hl, hml⟩ := List.mem_flatten.mp hmem
  obtain ⟨t, _, rfl⟩ := List.mem_map.mp hl
  exact processOneFile_no_dict_write t loc hml

/-- C10 witness: a file whose refactor response proposes a key that is not
invoked in the committed content yields no confirmed keys, and no locale
dictionary write occurs (while the source file itself is rewritten). -/
theorem C10_no_keys_no_dict_writes_witness :
    Effect.writeLocaleDict "es" ∉
      (processFiles
        [{ path := "p.tsx", content := "<h1>W</h1>"
         , api := fun _ => ApiResp.json
            { needsUpdate := true
            , updatedCode := "export default function P() \x7b return <h1>hello</h1>; \x7d"
            , translations := [("unused_key", "Ignore me")] } }]
        ["es"]).2 :=
  C10_no_keys_no_dict_writes _ ["es"] (by decide) "es"

end I18n

namespace I18n

/-! ## Claim C4 -/

/-- C4: per file, a response the required JSON structure cannot be parsed
from is re-requested up to 2 extra attempts (3 total): two non-parseable
responses followed by a valid one surface no error, three consecutive
failures surface the contract-violation error for that file; and in
`processFiles` one file's outcome is computed from that file's own round
trips alone, so replacing (e.g. failing) one file never changes a sibling's
outcome, and every file of every batch gets an outcome. -/
theorem C4_retry_bound_and_isolation (p : String) (r : RefactorResult)
    (hok : r.needsUpdate = false ∨ validateUpdatedCode (sanitizeCode r.updatedCode) = true) :
    (processFileWithOpenAI p (fun n => if n < 2 then ApiResp.badJson else ApiResp.json r) 0).1.isOk = true
    ∧ (processFileWithOpenAI p (fun _ => ApiResp.badJson) 0).1 = .error .parseFailed
    ∧ (∀ (files : List FileTask) (locales : List String) (i j : Nat) (f2 : FileTask),
        j ≠ i →
        ((processFiles (files.set i f2) locales).1)[j]? = ((processFiles files locales).1)[j]?)
    ∧ ∀ (files : List FileTask) (locales : List String),
        ((processFiles files locales).1).length = files.length := by
  refine ⟨?_, by simp [processFileWithOpenAI, processFileAttempt], ?_, ?_⟩
  · rcases hok with h | h
    · simp [processFileWithOpenAI, processFileAttempt, h, Except.isOk, Except.toBool]
    · by_cases hu : r.needsUpdate
      · simp [processFileWithOpenAI, processFileAttempt, hu, h, Except.isOk, Except.toBool]
      · simp [processFileWithOpenAI, processFileAttempt, hu, Except.isOk, Except.toBool]
  · intro files locales i j f2 hj
    simp only [processFiles, List.map_set]
    exact List.getElem?_set_ne (fun hh => hj hh.symm)
  · intro files locales
    simp [processFiles]

/-- C4 witness: the retry-bound and isolation facts at a concrete prompt,
response and batch. -/
theorem C4_retry_bound_and_isolation_witness :
    (processFileWithOpenAI "P" (fun n => if n < 2 then ApiResp.badJson
        else ApiResp.json { needsUpdate := false, updatedCode := "", translations := [] }) 0).1.isOk = true
    ∧ ((processFiles
          ([{ path := "a.tsx", content := "A", api := fun _ => ApiResp.badJson },
            { path := "b.tsx", content := "B", api := fun _ => ApiResp.json
                { needsUpdate := false, updatedCode := "", translations := [] } }].set 0
            { path := "a.tsx", content := "A", api := fun _ => ApiResp.httpError 500 "boom" })
          ["es"]).1)[1]?
      = ((processFiles
          [{ path := "a.tsx", content := "A", api := fun _ => ApiResp.badJson },
           { path := "b.tsx", content := "B", api := fun _ => ApiResp.json
                { needsUpdate := false, updatedCode := "", translations := [] } }]
          ["es"]).1)[1]? :=
  ⟨(C4_retry_bound_and_isolation "P"
      { needsUpdate := false, updatedCode := "", translations := [] } (Or.inl rfl)).1,
   (C4_retry_bound_and_isolation "P"
      { needsUpdate := false, updatedCode := "", translations := [] } (Or.inl rfl)).2.2.1
      _ ["es"] 0 1 _ (by decide)⟩

/-! ## Claim C7 -/

/-- C7 counterexample: the claim says a retried request carries an amended
instruction stating the previous attempt was invalid.  In the file-refactor
path the prompt is built once with retry count 0 and the client re-issues the
*same* string: after one non-parseable reply, the second request sent equals
the first, and differs from the amended prompt `getTaskPrompt` would produce
with a positive retry count. -/
theorem C7_retry_prompt_unchanged_cex :
    (processFileWithOpenAI (getTaskPrompt "const x = 1;" 0)
        (fun n => if n = 0 then ApiResp.badJson
          else ApiResp.json { needsUpdate := false, updatedCode := "", translations := [] }) 0).2
      = [getTaskPrompt "const x = 1;" 0, getTaskPrompt "const x = 1;" 0]
    ∧ getTaskPrompt "const x = 1;" 1 ≠ getTaskPrompt "const x = 1;" 0 := by
  constructor
  · simp [processFileWithOpenAI, processFileAttempt]
  · have h1 : getTaskPrompt "const x = 1;" 1
        = retryNotice ++ getTaskPrompt "const x = 1;" 0 := by
      simp [getTaskPrompt]
    rw [h1]
    intro habs
    have hd := congrArg String.data habs
    rw [String.data_append] at hd
    have hlen := congrArg List.length hd
    rw [List.length_append] at hlen
    have hz : retryNotice.data.length = 0 := by omega
    exact absurd (List.length_eq_zero.mp hz) (by decide)

theorem pfa_httpError (p : String) (api : Nat → ApiResp) (rc : Nat)
    (st : Nat) (b : String) (hapi : api rc = ApiResp.httpError st b)
    (left : Nat) :
    processFileAttempt p api rc left = (.error (.apiError st b), [p]) := by
  cases left <;> simp [processFileAttempt, hapi]

theorem pfa_noContent (p : String) (api : Nat → ApiResp) (rc : Nat)
    (hapi : api rc = ApiResp.noContent) (left : Nat) :
    processFileAttempt p api rc left = (.error .noContent, [p]) := by
  cases left <;> simp [processFileAttempt, hapi]

theorem pfa_badJson_zero (p : String) (api : Nat → ApiResp) (rc : Nat)
    (hapi : api rc = ApiResp.badJson) :
    processFileAttempt p api rc 0 = (.error .parseFailed, [p]) := by
  simp [processFileAttempt, hapi]

theorem pfa_badJson_succ (p : String) (api : Nat → ApiResp) (rc l : Nat)
    (hapi : api rc = ApiResp.badJson) :
    processFileAttempt p api rc (l + 1) =
      ((processFileAttempt p api (rc + 1) l).1,
        p :: (processFileAttempt p api (rc + 1) l).2) := by
  simp [processFileAttempt, hapi]

theorem pfa_json_noUpdate (p : String) (api : Nat → ApiResp) (rc : Nat)
    (parsed : RefactorResult) (hapi : api rc = ApiResp.json parsed)
    (hu : parsed.needsUpdate = false) (left : Nat) :
    processFileAttempt p api rc left = (.ok parsed, [p]) := by
  cases left <;> simp [processFileAttempt, hapi, hu]

theorem pfa_json_valid (p : String) (api : Nat → ApiResp) (rc : Nat)
    (parsed : RefactorResult) (hapi : api rc = ApiResp.json parsed)
    (hu : parsed.needsUpdate = true)
    (hv : validateUpdatedCode (sanitizeCode parsed.updatedCode) = true)
    (left : Nat) :
    processFileAttempt p api rc left =
      (.ok { parsed with updatedCode := sanitizeCode parsed.updatedCode }, [p]) := by
  cases left <;> simp [processFileAttempt, hapi, hu, hv]

theorem pfa_json_invalid_zero (p : String) (api : Nat → ApiResp) (rc : Nat)
    (parsed : RefactorResult) (hapi : api rc = ApiResp.json parsed)
    (hu : parsed.needsUpdate = true)
    (hv : validateUpdatedCode (sanitizeCode parsed.updatedCode) = false) :
    processFileAttempt p api rc 0 = (.error .validationFailed, [p]) := by
  simp [processFileAttempt, hapi, hu, hv]

theorem pfa_json_invalid_succ (p : String) (api : Nat → ApiResp) (rc l : Nat)
    (parsed : RefactorResult) (hapi : api rc = ApiResp.json parsed)
    (hu : parsed.needsUpdate = true)
    (hv : validateUpdatedCode (sanitizeCode parsed.updatedCode) = false) :
    processFileAttempt p api rc (l + 1) =
      ((processFileAttempt p api (rc + 1) l).1,
        p :: (processFileAttempt p api (rc + 1) l).2) := by
  simp [processFileAttempt, hapi, hu, hv]

theorem processFileAttempt_prompts (p : String) (api : Nat → ApiResp) :
    ∀ (left rc : Nat),
      (∀ q ∈ (processFileAttempt p api rc left).2, q = p)
      ∧ (processFileAttempt p api rc left).2.length ≤ left + 1 := by
  intro left
  induction left with
  | zero =>
      intro rc
      cases hapi : api rc with
      | httpError st b => rw [pfa_httpError p api rc st b hapi] <;> simp
      | noContent => rw [pfa_noContent p api rc hapi] <;> simp
      | badJson => rw [pfa_badJson_zero p api rc hapi] <;> simp
      | json parsed =>
          cases hu : parsed.needsUpdate with
          | false => rw [pfa_json_noUpdate p api rc parsed hapi hu] <;> simp
          | true =>
              cases hv : validateUpdatedCode (sanitizeCode parsed.updatedCode) with
              | true => rw [pfa_json_valid p api rc parsed hapi hu hv] <;> simp
              | false => rw [pfa_json_invalid_zero p api rc parsed hapi hu hv] <;> simp
  | succ left ih =>
      intro rc
      cases hapi : api rc with
      | httpError st b => rw [pfa_httpError p api rc st b hapi] <;> simp
      | noContent => rw [pfa_noContent p api rc hapi] <;> simp
      | badJson =>
          rw [pfa_badJson_succ p api rc left hapi]
          constructor
          · intro q hq
            rcases List.mem_cons.mp hq with h | h
            · exact h
            · exact (ih (rc + 1)).1 q h
          · simpa using Nat.succ_le_succ (ih (rc + 1)).2
      | json parsed =>
          cases hu : parsed.needsUpdate with
          | false => rw [pfa_json_noUpdate p api rc parsed hapi hu] <;> simp
          | true =>
              cases hv : validateUpdatedCode (sanitizeCode parsed.updatedCode) with
              | true => rw [pfa_json_valid p api rc parsed hapi hu hv] <;> simp
              | false =>
                  rw [pfa_json_invalid_succ p api rc left parsed hapi hu hv]
                  constructor
                  · intro q hq
                    rcases List.mem_cons.mp hq with h | h
                    · exact h
                    · exact (ih (rc + 1)).1 q h
                  · simpa using Nat.succ_le_succ (ih (rc + 1)).2

/-- C7 (amended): when a response fails JSON parsing or shape validation
within the retry bound, the request is re-issued with the attempt counter
incremented but with the *same* instruction string as the original — no
amended correction notice is added in the file-refactor path (the notice in
`getTaskPrompt` is only produced when a prompt is built with a positive retry
count, which that path never does) — and at most 3 requests are sent in
total. -/
theorem C7_retry_same_prompt_amended (prompt : String) (api : Nat → ApiResp)
    (rc : Nat) (q : String)
    (hq : q ∈ (processFileWithOpenAI prompt api rc).2) :
    q = prompt ∧ (processFileWithOpenAI prompt api rc).2.length ≤ 3 := by
  constructor
  · exact (processFileAttempt_prompts prompt api (2 - rc) rc).1 q hq
  · calc (processFileWithOpenAI prompt api rc).2.length
        ≤ (2 - rc) + 1 := (processFileAttempt_prompts prompt api (2 - rc) rc).2
    _ ≤ 3 := by omega

/-- C7 amended witness: at a concrete failing run the sampled sent request is
the original prompt and at most three requests were sent. -/
theorem C7_retry_same_prompt_amended_witness :
    getTaskPrompt "const x = 1;" 0 = getTaskPrompt "const x = 1;" 0
    ∧ (processFileWithOpenAI (getTaskPrompt "const x = 1;" 0)
        (fun _ => ApiResp.badJson) 0).2.length ≤ 3 :=
  C7_retry_same_prompt_amended (getTaskPrompt "const x = 1;" 0)
    (fun _ => ApiResp.badJson) 0 (getTaskPrompt "const x = 1;" 0)
    (by simp [processFileWithOpenAI, processFileAttempt])

end I18n

namespace I18n

/-! ## Claim C3 -/

theorem jlookup_updateCommonJsonDict_notmem (newKeys : List (String × String))
    (current : List (String × JVal)) (k : String)
    (h : ∀ kv ∈ newKeys, kv.1 ≠ k) :
    jlookup (updateCommonJsonDict current newKeys) k = jlookup current k := by
  induction newKeys generalizing current with
  | nil => rfl
  | cons kv rest ih =>
      show jlookup (updateCommonJsonDict (setKey current kv.1 (.str kv.2)) rest) k
        = jlookup current k
      rw [ih _ fun kv2 h2 => h kv2 (List.mem_cons_of_mem _ h2)]
      exact jlookup_setKey_ne _ _ _ _ (h kv (List.mem_cons_self _ _))

/-- C3: when a refactor response signals update-needed, the file is
overwritten in full with the sanitized provided content, and exactly those
proposed translation keys that `extractUsedKeys` verifies present as
translation-lookup invocations in the committed content are added to the
aggregate of new keys; a proposed key not invoked in the committed source is
never persisted to a locale dictionary (the dictionary's entry for it is
exactly what it was before). -/
theorem C3_confirmed_keys_exactly_used (pth c : String) (r : RefactorResult)
    (current : List (String × JVal))
    (hu : r.needsUpdate = true)
    (hv : validateUpdatedCode (sanitizeCode r.updatedCode) = true) :
    Effect.writeSource pth (sanitizeCode r.updatedCode)
      ∈ (processOneFile ⟨pth, c, fun _ => ApiResp.json r⟩).2
    ∧ (∀ k v, (k, v) ∈ outcomeKeys (processOneFile ⟨pth, c, fun _ => ApiResp.json r⟩).1 ↔
        ((k, v) ∈ r.translations
          ∧ (extractUsedKeys (sanitizeCode r.updatedCode)).contains k = true))
    ∧ ∀ k, (extractUsedKeys (sanitizeCode r.updatedCode)).contains k = false →
        jlookup (updateCommonJsonDict current
            (outcomeKeys (processOneFile ⟨pth, c, fun _ => ApiResp.json r⟩).1)) k
          = jlookup current k := by
  have hres : processFileWithOpenAI (getTaskPrompt c 0) (fun _ => ApiResp.json r) 0
      = (.ok { r with updatedCode := sanitizeCode r.updatedCode }, [getTaskPrompt c 0]) := by
    unfold processFileWithOpenAI
    exact pfa_json_valid (getTaskPrompt c 0) (fun _ => ApiResp.json r) 0 r rfl hu hv (2 - 0)
  have hout : processOneFile ⟨pth, c, fun _ => ApiResp.json r⟩
      = (.updated (r.translations.filter fun kv =>
            (extractUsedKeys (sanitizeCode r.updatedCode)).contains kv.1),
         [Effect.aiCall, Effect.writeSource pth (sanitizeCode r.updatedCode)]) := by
    unfold processOneFile
    rw [hres]
    simp [hu]
  refine ⟨?_, ?_, ?_⟩
  · rw [hout]
    simp
  · intro k v
    rw [hout]
    show (k, v) ∈ r.translations.filter _ ↔ _
    rw [List.mem_filter]
  · intro k hk
    rw [hout]
    apply jlookup_updateCommonJsonDict_notmem
    intro kv hkv habs
    have := (List.mem_filter.mp hkv).2
    rw [habs, hk] at this
    exact Bool.noConfusion this

/-- C3 witness: the end-to-end scenario — the committed content invokes
`t("header_title")` only, so `"header_title"` is confirmed while
`"unused_key"` is not, and the locale dictionary still has no entry for
`"unused_key"` afterwards. -/
theorem C3_confirmed_keys_exactly_used_witness :
    Effect.writeSource "p.tsx"
        (sanitizeCode "export default function P() \x7b const t = useTranslations(\"common\"); return <h1>\x7bt(\"header_title\")\x7d</h1>; \x7d")
      ∈ (processOneFile ⟨"p.tsx", "<h1>Welcome</h1>", fun _ => ApiResp.json
          { needsUpdate := true
          , updatedCode := "export default function P() \x7b const t = useTranslations(\"common\"); return <h1>\x7bt(\"header_title\")\x7d</h1>; \x7d"
          , translations := [("header_title", "Welcome"), ("unused_key", "Ignore me")] }⟩).2
    ∧ (("header_title", "Welcome") ∈ outcomeKeys (processOneFile ⟨"p.tsx", "<h1>Welcome</h1>",
          fun _ => ApiResp.json
          { needsUpdate := true
          , updatedCode := "export default function P() \x7b const t = useTranslations(\"common\"); return <h1>\x7bt(\"header_title\")\x7d</h1>; \x7d"
          , translations := [("header_title", "Welcome"), ("unused_key", "Ignore me")] }⟩).1 ↔
        (("header_title", "Welcome") ∈
            [(("header_title" : String), ("Welcome" : String)), ("unused_key", "Ignore me")]
          ∧ (extractUsedKeys (sanitizeCode "export default function P() \x7b const t = useTranslations(\"common\"); return <h1>\x7bt(\"header_title\")\x7d</h1>; \x7d")).contains "header_title" = true))
    ∧ jlookup (updateCommonJsonDict []
          (outcomeKeys (processOneFile ⟨"p.tsx", "<h1>Welcome</h1>", fun _ => ApiResp.json
          { needsUpdate := true
          , updatedCode := "export default function P() \x7b const t = useTranslations(\"common\"); return <h1>\x7bt(\"header_title\")\x7d</h1>; \x7d"
          , translations := [("header_title", "Welcome"), ("unused_key", "Ignore me")] }⟩).1))
        "unused_key" = jlookup [] "unused_key" :=
  ⟨(C3_confirmed_keys_exactly_used "p.tsx" "<h1>Welcome</h1>" _ [] rfl (by decide)).1,
   (C3_confirmed_keys_exactly_used "p.tsx" "<h1>Welcome</h1>" _ [] rfl (by decide)).2.1
      "header_title" "Welcome",
   (C3_confirmed_keys_exactly_used "p.tsx" "<h1>Welcome</h1>" _ [] rfl (by decide)).2.2
      "unused_key" (by decide)⟩

end I18n

namespace I18n

/-! ## Basic lemmas for the deep-merge development -/

theorem foldl_jsSet_prim (l : List (String × JVal)) (t : JVal)
    (ht : isObjB t = false) :
    l.foldl (fun acc kv => jsSet acc kv.1 kv.2) t = t := by
  induction l with
  | nil => rfl
  | cons kv rest ih =>
      cases t with
      | obj kvs => simp [isObjB] at ht
      | str s => simpa [jsSet] using ih
      | num n => simpa [jsSet] using ih

theorem deepMergeEntries_prim (l : List (String × JVal)) (t : JVal)
    (ht : isObjB t = false) :
    deepMergeEntries t l = t := by
  induction l generalizing t with
  | nil => rfl
  | cons kv rest ih =>
      obtain ⟨k, v⟩ := kv
      cases t with
      | obj kvs => simp [isObjB] at ht
      | str s =>
          cases v with
          | obj kvs2 => exact ih _ ht
          | str s2 => exact ih _ ht
          | num n2 => exact ih _ ht
      | num n =>
          cases v with
          | obj kvs2 => exact ih _ ht
          | str s2 => exact ih _ ht
          | num n2 => exact ih _ ht

theorem deepMerge_prim (src : JVal) (t : JVal) (ht : isObjB t = false) :
    deepMerge t src = t := by
  cases src with
  | obj kvs => exact deepMergeEntries_prim kvs t ht
  | str s => exact foldl_jsSet_prim _ t ht
  | num n => rfl

theorem deepMergeEntries_isObj (l : List (String × JVal)) (t : JVal)
    (ht : isObjB t = true) :
    isObjB (deepMergeEntries t l) = true := by
  induction l generalizing t with
  | nil => exact ht
  | cons kv rest ih =>
      obtain ⟨k, v⟩ := kv
      cases t with
      | str s => simp [isObjB] at ht
      | num n => simp [isObjB] at ht
      | obj kvs =>
          cases v with
          | obj kvs2 => exact ih _ (by simp [jsSet, isObjB])
          | str s2 => exact ih _ (by simp [jsSet, isObjB])
          | num n2 => exact ih _ (by simp [jsSet, isObjB])

theorem jlookup_none_iff (l : List (String × JVal)) (k : String) :
    jlookup l k = none ↔ k ∉ keysOf l := by
  induction l with
  | nil => simp [jlookup, keysOf]
  | cons kv rest ih =>
      obtain ⟨k1, v1⟩ := kv
      by_cases h1 : k1 = k
      · subst h1
        simp [jlookup, keysOf]
      · simp [jlookup, h1, keysOf, ih, Ne.symm h1]

theorem jlookup_mem (l : List (String × JVal)) (k : String) (v : JVal)
    (h : jlookup l k = some v) : (k, v) ∈ l := by
  induction l with
  | nil => simp [jlookup] at h
  | cons kv rest ih =>
      obtain ⟨k1, v1⟩ := kv
      by_cases h1 : k1 = k
      · subst h1
        simp [jlookup] at h
        subst h
        exact List.mem_cons_self _ _
      · simp only [jlookup, if_neg h1] at h
        exact List.mem_cons_of_mem _ (ih h)

theorem sizeOf_mem_entries (l : List (String × JVal)) (kv : String × JVal)
    (h : kv ∈ l) : sizeOf kv.2 < sizeOf l := by
  induction l with
  | nil => simp at h
  | cons kv1 rest ih =>
      rcases List.mem_cons.mp h with h | h
      · subst h
        obtain ⟨k, v⟩ := kv
        simp
        omega
      · have := ih h
        simp
        omega

theorem isDictNode_lookup (kvs : List (String × JVal)) (k : String) (v : JVal)
    (hd : isDictList kvs = true) (h : jlookup kvs k = some v) :
    isDictNode v = true := by
  induction kvs with
  | nil => simp [jlookup] at h
  | cons kv rest ih =>
      obtain ⟨k1, v1⟩ := kv
      simp only [isDictList, Bool.and_eq_true] at hd
      by_cases h1 : k1 = k
      · subst h1
        simp [jlookup] at h
        subst h
        exact hd.1
      · simp only [jlookup, if_neg h1] at h
        exact ih hd.2 h

theorem wfKeysList_lookup (kvs : List (String × JVal)) (k : String) (v : JVal)
    (hw : wfKeysList kvs = true) (h : jlookup kvs k = some v) :
    wfKeys v = true := by
  induction kvs with
  | nil => simp [jlookup] at h
  | cons kv rest ih =>
      obtain ⟨k1, v1⟩ := kv
      simp only [wfKeysList, Bool.and_eq_true] at hw
      by_cases h1 : k1 = k
      · subst h1
        simp [jlookup] at h
        subst h
        exact hw.1
      · simp only [jlookup, if_neg h1] at h
        exact ih hw.2 h

theorem nodupBy_iff (l : List String) : nodupBy l = true ↔ l.Nodup := by
  induction l with
  | nil => simp [nodupBy]
  | cons k rest ih =>
      simp [nodupBy, List.nodup_cons, ih, List.elem_iff]

end I18n

namespace I18n

/-! ## Lookup and key characterization of `deepMergeEntries` -/

theorem jlookupV_jsSet_self (xkvs : List (String × JVal)) (k : String) (w : JVal) :
    jlookupV (jsSet (.obj xkvs) k w) k = some w := by
  simp [jsSet, jlookupV, jlookup_setKey_self]

theorem jlookupV_jsSet_ne (xkvs : List (String × JVal)) (k0 k : String) (w : JVal)
    (h : k0 ≠ k) :
    jlookupV (jsSet (.obj xkvs) k0 w) k = jlookupV (.obj xkvs) k := by
  simp [jsSet, jlookupV, jlookup_setKey_ne _ _ _ _ h]

theorem getOrEmpty_eq_jlookupV (t : JVal) (k : String) (ht : isObjB t = true) :
    getOrEmpty t k =
      match jlookupV t k with
      | some v => if truthy v then v else .obj []
      | none => .obj [] := by
  cases t with
  | obj kvs => rfl
  | str s => simp [isObjB] at ht
  | num n => simp [isObjB] at ht

theorem getOrEmpty_jsSet_ne (xkvs : List (String × JVal)) (k0 k : String) (w : JVal)
    (h : k0 ≠ k) :
    getOrEmpty (jsSet (.obj xkvs) k0 w) k = getOrEmpty (.obj xkvs) k := by
  rw [getOrEmpty_eq_jlookupV _ _ (by simp [jsSet, isObjB]),
    getOrEmpty_eq_jlookupV _ _ (by simp [isObjB]),
    jlookupV_jsSet_ne _ _ _ _ h]

theorem jlookupV_deepMergeEntries (skvs : List (String × JVal)) :
    ∀ (X : JVal), isObjB X = true → nodupBy (keysOf skvs) = true → ∀ (k : String),
    jlookupV (deepMergeEntries X skvs) k =
      match jlookup skvs k with
      | some (JVal.obj kvs2) => some (deepMergeEntries (getOrEmpty X k) kvs2)
      | some v => some v
      | none => jlookupV X k := by
  induction skvs with
  | nil => intro X hX hnd k; simp [deepMergeEntries, jlookup]
  | cons kv rest ih =>
      intro X hX hnd k
      obtain ⟨k0, v0⟩ := kv
      obtain ⟨xkvs, rfl⟩ : ∃ xkvs, X = JVal.obj xkvs := by
        cases X with
        | obj xkvs => exact ⟨xkvs, rfl⟩
        | str s => simp [isObjB] at hX
        | num n => simp [isObjB] at hX
      have hand : (!((keysOf rest).contains k0)) = true ∧ nodupBy (keysOf rest) = true := by
        simpa [nodupBy, keysOf] using hnd
      have hc : k0 ∉ keysOf rest := by simpa using hand.1
      have hnone : jlookup rest k0 = none := (jlookup_none_iff rest k0).mpr hc
      cases v0 with
      | obj kvs2 =>
          simp only [deepMergeEntries]
          rw [ih _ (by simp [jsSet, isObjB]) hand.2 k]
          by_cases hkk : k0 = k
          · subst hkk
            rw [hnone]
            simp [jlookup, jlookupV_jsSet_self]
          · simp only [jlookup, if_neg hkk]
            cases hlk : jlookup rest k with
            | none => simp [jlookupV_jsSet_ne _ _ _ _ hkk]
            | some vr =>
                cases vr with
                | obj kvs3 => simp [getOrEmpty_jsSet_ne _ _ _ _ hkk]
                | str s => rfl
                | num n => rfl
      | str s0 =>
          simp only [deepMergeEntries]
          rw [ih _ (by simp [jsSet, isObjB]) hand.2 k]
          by_cases hkk : k0 = k
          · subst hkk
            rw [hnone]
            simp [jlookup, jlookupV_jsSet_self]
          · simp only [jlookup, if_neg hkk]
            cases hlk : jlookup rest k with
            | none => simp [jlookupV_jsSet_ne _ _ _ _ hkk]
            | some vr =>
                cases vr with
                | obj kvs3 => simp [getOrEmpty_jsSet_ne _ _ _ _ hkk]
                | str s => rfl
                | num n => rfl
      | num n0 =>
          simp only [deepMergeEntries]
          rw [ih _ (by simp [jsSet, isObjB]) hand.2 k]
          by_cases hkk : k0 = k
          · subst hkk
            rw [hnone]
            simp [jlookup, jlookupV_jsSet_self]
          · simp only [jlookup, if_neg hkk]
            cases hlk : jlookup rest k with
            | none => simp [jlookupV_jsSet_ne _ _ _ _ hkk]
            | some vr =>
                cases vr with
                | obj kvs3 => simp [getOrEmpty_jsSet_ne _ _ _ _ hkk]
                | str s => rfl
                | num n => rfl

theorem keysV_jsSet (xkvs : List (String × JVal)) (k0 : String) (w : JVal) :
    keysV (jsSet (.obj xkvs) k0 w) =
      if k0 ∈ keysV (.obj xkvs) then keysV (.obj xkvs) else keysV (.obj xkvs) ++ [k0] := by
  simp only [jsSet, keysV]
  exact keysOf_setKey xkvs k0 w

theorem keysV_deepMergeEntries (skvs : List (String × JVal)) :
    ∀ (X : JVal), isObjB X = true → nodupBy (keysOf skvs) = true →
    keysV (deepMergeEntries X skvs) =
      keysV X ++ (keysOf skvs).filter (fun k2 => !((keysV X).contains k2)) := by
  induction skvs with
  | nil => intro X hX hnd; simp [deepMergeEntries, keysOf]
  | cons kv rest ih =>
      intro X hX hnd
      obtain ⟨k0, v0⟩ := kv
      obtain ⟨xkvs, rfl⟩ : ∃ xkvs, X = JVal.obj xkvs := by
        cases X with
        | obj xkvs => exact ⟨xkvs, rfl⟩
        | str s => simp [isObjB] at hX
        | num n => simp [isObjB] at hX
      have hand : (!((keysOf rest).contains k0)) = true ∧ nodupBy (keysOf rest) = true := by
        simpa [nodupBy, keysOf] using hnd
      have hc : k0 ∉ keysOf rest := by simpa using hand.1
      have hkeys : ∀ (w : JVal),
          keysV (deepMergeEntries (jsSet (JVal.obj xkvs) k0 w) rest) =
            keysV (JVal.obj xkvs) ++
              (keysOf ((k0, v0) :: rest)).filter
                (fun k2 => !((keysV (JVal.obj xkvs)).contains k2)) := by
        intro w
        rw [ih _ (by simp [jsSet, isObjB]) hand.2, keysV_jsSet]
        by_cases hm : k0 ∈ keysV (JVal.obj xkvs)
        · rw [if_pos hm]
          have hfc : (keysOf ((k0, v0) :: rest)).filter
                (fun k2 => !((keysV (JVal.obj xkvs)).contains k2))
              = (keysOf rest).filter (fun k2 => !((keysV (JVal.obj xkvs)).contains k2)) := by
            show List.filter _ (k0 :: keysOf rest) = _
            rw [List.filter_cons_of_neg]
            simp [List.elem_iff, hm]
          rw [hfc]
        · rw [if_neg hm]
          have hfc : (keysOf ((k0, v0) :: rest)).filter
                (fun k2 => !((keysV (JVal.obj xkvs)).contains k2))
              = k0 :: (keysOf rest).filter (fun k2 => !((keysV (JVal.obj xkvs)).contains k2)) := by
            show List.filter _ (k0 :: keysOf rest) = _
            rw [List.filter_cons_of_pos]
            simp [List.elem_iff, hm]
          rw [hfc]
          have hsame : (keysOf rest).filter
                (fun k2 => !((keysV (JVal.obj xkvs) ++ [k0]).contains k2))
              = (keysOf rest).filter (fun k2 => !((keysV (JVal.obj xkvs)).contains k2)) := by
            apply List.filter_congr
            intro x hx
            have hne : x ≠ k0 := fun hxk => hc (hxk ▸ hx)
            simp [List.elem_iff, List.mem_append, hne]
          rw [hsame, List.append_assoc]
          rfl
      cases v0 with
      | obj kvs2 => exact hkeys _
      | str s0 => exact hkeys _
      | num n0 => exact hkeys _

theorem entries_ext : ∀ (l1 l2 : List (String × JVal)),
    keysOf l1 = keysOf l2 → nodupBy (keysOf l1) = true →
    (∀ k, jlookup l1 k = jlookup l2 k) → l1 = l2 := by
  intro l1
  induction l1 with
  | nil =>
      intro l2 hk _ _
      cases l2 with
      | nil => rfl
      | cons kv rest => simp [keysOf] at hk
  | cons kv1 rest1 ih =>
      intro l2 hk hnd hl
      obtain ⟨k1, v1⟩ := kv1
      cases l2 with
      | nil => simp [keysOf] at hk
      | cons kv2 rest2 =>
          obtain ⟨k2, v2⟩ := kv2
          simp only [keysOf, List.map_cons, List.cons.injEq] at hk
          obtain ⟨hk12, hkrest⟩ := hk
          subst hk12
          have hand : (!((keysOf rest1).contains k1)) = true
              ∧ nodupBy (keysOf rest1) = true := by
            simpa [nodupBy, keysOf] using hnd
          have hc1 : k1 ∉ keysOf rest1 := by simpa using hand.1
          have hkrest2 : keysOf rest1 = keysOf rest2 := hkrest
          have hc2 : k1 ∉ keysOf rest2 := fun hm => hc1 (by rw [hkrest2]; exact hm)
          have hv : v1 = v2 := by
            have := hl k1
            simpa [jlookup] using this
          subst hv
          have hrest : rest1 = rest2 := by
            apply ih rest2 hkrest hand.2
            intro k
            by_cases hk1 : k = k1
            · subst hk1
              rw [(jlookup_none_iff rest1 k).mpr hc1,
                (jlookup_none_iff rest2 k).mpr hc2]
            · have hne : k1 ≠ k := fun h => hk1 h.symm
              have := hl k
              simpa [jlookup, hne] using this
          rw [hrest]

theorem objV_ext (a b : JVal) (ha : isObjB a = true) (hb : isObjB b = true)
    (hnd : nodupBy (keysV a) = true) (hk : keysV a = keysV b)
    (hl : ∀ k, jlookupV a k = jlookupV b k) : a = b := by
  obtain ⟨akvs, rfl⟩ : ∃ akvs, a = JVal.obj akvs := by
    cases a with
    | obj akvs => exact ⟨akvs, rfl⟩
    | str s => simp [isObjB] at ha
    | num n => simp [isObjB] at ha
  obtain ⟨bkvs, rfl⟩ : ∃ bkvs, b = JVal.obj bkvs := by
    cases b with
    | obj bkvs => exact ⟨bkvs, rfl⟩
    | str s => simp [isObjB] at hb
    | num n => simp [isObjB] at hb
  have : akvs = bkvs := entries_ext akvs bkvs hk hnd hl
  rw [this]

theorem filter_not_contains_self (xs : List String) :
    xs.filter (fun k2 => !(xs.contains k2)) = [] := by
  rw [List.filter_eq_nil]
  intro a ha
  simp [List.elem_iff, ha]

theorem filter_not_contains_idem (p : List String) (ys : List String) :
    (ys.filter (fun k2 => !(p.contains k2))).filter (fun k2 => !(p.contains k2))
      = ys.filter (fun k2 => !(p.contains k2)) := by
  rw [List.filter_filter]
  apply List.filter_congr
  intro x _
  simp

theorem nodup_append_filter (xs ys : List String)
    (hx : nodupBy xs = true) (hy : nodupBy ys = true) :
    nodupBy (xs ++ ys.filter (fun k2 => !(xs.contains k2))) = true := by
  rw [nodupBy_iff]
  apply List.Nodup.append
  · exact (nodupBy_iff xs).mp hx
  · exact List.Nodup.filter _ ((nodupBy_iff ys).mp hy)
  · intro a hax haf
    have := List.of_mem_filter haf
    simp [List.elem_iff] at this
    exact this hax

theorem getOrEmpty_dict_wf (xkvs : List (String × JVal)) (k : String)
    (hd : isDictList xkvs = true) (hw : wfKeysList xkvs = true) :
    isDictNode (getOrEmpty (.obj xkvs) k) = true
      ∧ wfKeys (getOrEmpty (.obj xkvs) k) = true := by
  have hge : getOrEmpty (.obj xkvs) k =
      match jlookup xkvs k with
      | some v => if truthy v then v else .obj []
      | none => .obj [] := rfl
  rw [hge]
  cases hlk : jlookup xkvs k with
  | none => exact ⟨rfl, rfl⟩
  | some w =>
      by_cases ht : truthy w
      · simp only [ht, if_true]
        exact ⟨isDictNode_lookup xkvs k w hd hlk, wfKeysList_lookup xkvs k w hw hlk⟩
      · simp only [ht, Bool.false_eq_true, if_false]
        exact ⟨rfl, rfl⟩

theorem deepMerge_self_aux :
    ∀ (n : Nat) (Z : JVal), sizeOf Z ≤ n → isDictNode Z = true → wfKeys Z = true →
    deepMerge Z Z = Z := by
  intro n
  induction n with
  | zero =>
      intro Z hsz _ _
      cases Z <;> simp at hsz
  | succ n ihn =>
      intro Z hsz hd hw
      cases Z with
      | str s => exact foldl_jsSet_prim _ _ rfl
      | num m => rfl
      | obj kvs =>
          show deepMergeEntries (JVal.obj kvs) kvs = JVal.obj kvs
          have hld : isDictList kvs = true := hd
          have hwp : nodupBy (keysOf kvs) = true ∧ wfKeysList kvs = true := by
            simpa [wfKeys] using hw
          have hkeysr : keysV (deepMergeEntries (JVal.obj kvs) kvs) = keysV (JVal.obj kvs) := by
            rw [keysV_deepMergeEntries kvs (JVal.obj kvs) rfl hwp.1]
            simp only [keysV]
            rw [filter_not_contains_self, List.append_nil]
          apply objV_ext (deepMergeEntries (JVal.obj kvs) kvs) (JVal.obj kvs)
            (deepMergeEntries_isObj kvs (JVal.obj kvs) rfl) rfl
            (by rw [hkeysr]; exact hwp.1) hkeysr
          intro k
          rw [jlookupV_deepMergeEntries kvs (JVal.obj kvs) rfl hwp.1 k]
          cases hlk : jlookup kvs k with
          | none => simp [jlookupV, hlk]
          | some w =>
              cases w with
              | str s2 => simp [jlookupV, hlk]
              | num m2 => simp [jlookupV, hlk]
              | obj kvs2 =>
                  have hge : getOrEmpty (JVal.obj kvs) k = JVal.obj kvs2 := by
                    have : getOrEmpty (.obj kvs) k =
                        match jlookup kvs k with
                        | some v => if truthy v then v else .obj []
                        | none => .obj [] := rfl
                    rw [this, hlk]
                    rfl
                  have hsub : deepMerge (JVal.obj kvs2) (JVal.obj kvs2) = JVal.obj kvs2 := by
                    apply ihn
                    · have h1 := sizeOf_mem_entries kvs (k, JVal.obj kvs2) (jlookup_mem kvs k _ hlk)
                      simp at h1 hsz ⊢
                      omega
                    · exact isDictNode_lookup kvs k _ hld hlk
                    · exact wfKeysList_lookup kvs k _ hwp.2 hlk
                  simp only [hge, jlookupV, hlk]
                  exact congrArg some hsub

theorem deepMerge_self (Z : JVal) (hd : isDictNode Z = true) (hw : wfKeys Z = true) :
    deepMerge Z Z = Z :=
  deepMerge_self_aux (sizeOf Z) Z (Nat.le_refl _) hd hw

theorem deepMerge_absorb_aux :
    ∀ (n : Nat) (ykvs : List (String × JVal)) (X : JVal),
    sizeOf ykvs ≤ n → isDictNode X = true → wfKeys X = true →
    isDictList ykvs = true → nodupBy (keysOf ykvs) = true → wfKeysList ykvs = true →
    deepMerge X (deepMerge X (.obj ykvs)) = deepMerge X (.obj ykvs) := by
  intro n
  induction n with
  | zero =>
      intro ykvs X hsz hdX hwX hdY hndY hwY
      cases ykvs with
      | nil =>
          show deepMerge X X = X
          cases X with
          | str s => exact foldl_jsSet_prim _ _ rfl
          | num m => rfl
          | obj xkvs => exact deepMerge_self (JVal.obj xkvs) hdX hwX
      | cons kv rest => simp at hsz
  | succ n ihn =>
      intro ykvs X hsz hdX hwX hdY hndY hwY
      cases X with
      | str s =>
          rw [show deepMerge (JVal.str s) (JVal.obj ykvs) = JVal.str s from
            deepMergeEntries_prim ykvs _ rfl]
          exact foldl_jsSet_prim _ _ rfl
      | num m =>
          rw [show deepMerge (JVal.num m) (JVal.obj ykvs) = JVal.num m from
            deepMergeEntries_prim ykvs _ rfl]
          rfl
      | obj xkvs =>
          have hwpX : nodupBy (keysOf xkvs) = true ∧ wfKeysList xkvs = true := by
            simpa [wfKeys] using hwX
          have hMobj : isObjB (deepMergeEntries (JVal.obj xkvs) ykvs) = true :=
            deepMergeEntries_isObj ykvs (JVal.obj xkvs) rfl
          obtain ⟨mkvs, hM⟩ : ∃ mkvs,
              deepMergeEntries (JVal.obj xkvs) ykvs = JVal.obj mkvs := by
            cases hm : deepMergeEntries (JVal.obj xkvs) ykvs with
            | obj mkvs => exact ⟨mkvs, rfl⟩
            | str s2 => rw [hm] at hMobj; simp [isObjB] at hMobj
            | num m2 => rw [hm] at hMobj; simp [isObjB] at hMobj
          have hkeysM : keysOf mkvs = keysOf xkvs ++
              (keysOf ykvs).filter (fun k2 => !((keysOf xkvs).contains k2)) := by
            have hkk := keysV_deepMergeEntries ykvs (JVal.obj xkvs) rfl hndY
            rw [hM] at hkk
            simpa [keysV] using hkk
          have hndM : nodupBy (keysOf mkvs) = true := by
            rw [hkeysM]
            exact nodup_append_filter _ _ hwpX.1 hndY
          show deepMerge (JVal.obj xkvs) (deepMergeEntries (JVal.obj xkvs) ykvs)
            = deepMergeEntries (JVal.obj xkvs) ykvs
          rw [hM]
          show deepMergeEntries (JVal.obj xkvs) mkvs = JVal.obj mkvs
          have hkeysEq : keysV (deepMergeEntries (JVal.obj xkvs) mkvs)
              = keysV (JVal.obj mkvs) := by
            rw [keysV_deepMergeEntries mkvs (JVal.obj xkvs) rfl hndM]
            simp only [keysV]
            rw [hkeysM, List.filter_append, filter_not_contains_self,
              filter_not_contains_idem, List.nil_append]
          apply objV_ext (deepMergeEntries (JVal.obj xkvs) mkvs) (JVal.obj mkvs)
            (deepMergeEntries_isObj mkvs (JVal.obj xkvs) rfl) rfl
            (by rw [hkeysEq]; simpa [keysV] using hndM) hkeysEq
          intro k
          rw [jlookupV_deepMergeEntries mkvs (JVal.obj xkvs) rfl hndM k]
          cases hmk : jlookup mkvs k with
          | none =>
              have hkm : k ∉ keysOf mkvs := (jlookup_none_iff mkvs k).mp hmk
              have hkx : k ∉ keysOf xkvs := fun hm => hkm
                (by rw [hkeysM]; exact List.mem_append_left _ hm)
              have hnx : jlookup xkvs k = none := (jlookup_none_iff xkvs k).mpr hkx
              simp [jlookupV, hmk, hnx]
          | some vm =>
              cases vm with
              | str s2 => simp [jlookupV, hmk]
              | num m2 => simp [jlookupV, hmk]
              | obj vkvs =>
                  have hVm : jlookup mkvs k =
                      match jlookup ykvs k with
                      | some (JVal.obj kvs2) =>
                          some (deepMergeEntries (getOrEmpty (JVal.obj xkvs) k) kvs2)
                      | some v => some v
                      | none => jlookupV (JVal.obj xkvs) k := by
                    have hE := jlookupV_deepMergeEntries ykvs (JVal.obj xkvs) rfl hndY k
                    rw [hM] at hE
                    simpa [jlookupV] using hE
                  rw [hmk] at hVm
                  cases hyk : jlookup ykvs k with
                  | none =>
                      rw [hyk] at hVm
                      have hxv : jlookup xkvs k = some (.obj vkvs) := by
                        simpa [jlookupV] using hVm.symm
                      have hge : getOrEmpty (.obj xkvs) k = .obj vkvs := by
                        have h0 : getOrEmpty (.obj xkvs) k =
                            match jlookup xkvs k with
                            | some v => if truthy v then v else .obj []
                            | none => .obj [] := rfl
                        rw [h0, hxv]
                        rfl
                      simp only [jlookupV, hmk]
                      rw [hge]
                      exact congrArg some (deepMerge_self (.obj vkvs)
                        (isDictNode_lookup xkvs k _ hdX hxv)
                        (wfKeysList_lookup xkvs k _ hwpX.2 hxv))
                  | some vy =>
                      cases vy with
                      | str s3 => rw [hyk] at hVm; exact absurd hVm (by simp)
                      | num m3 => rw [hyk] at hVm; exact absurd hVm (by simp)
                      | obj ykvs2 =>
                          rw [hyk] at hVm
                          have hvm2 : JVal.obj vkvs
                              = deepMergeEntries (getOrEmpty (.obj xkvs) k) ykvs2 :=
                            Option.some.inj hVm
                          by_cases hXo : isObjB (getOrEmpty (.obj xkvs) k) = true
                          · have hgw := getOrEmpty_dict_wf xkvs k hdX hwpX.2
                            have hsize : sizeOf ykvs2 ≤ n := by
                              have h1 := sizeOf_mem_entries ykvs (k, JVal.obj ykvs2)
                                (jlookup_mem ykvs k _ hyk)
                              simp at h1 hsz ⊢
                              omega
                            have hdY2 : isDictList ykvs2 = true :=
                              isDictNode_lookup ykvs k _ hdY hyk
                            have hwY2 : wfKeys (JVal.obj ykvs2) = true :=
                              wfKeysList_lookup ykvs k _ hwY hyk
                            have hwp2 : nodupBy (keysOf ykvs2) = true
                                ∧ wfKeysList ykvs2 = true := by
                              simpa [wfKeys] using hwY2
                            have habs := ihn ykvs2 (getOrEmpty (.obj xkvs) k) hsize
                              hgw.1 hgw.2 hdY2 hwp2.1 hwp2.2
                            have hvm2' : JVal.obj vkvs
                                = deepMerge (getOrEmpty (.obj xkvs) k) (.obj ykvs2) := hvm2
                            simp only [jlookupV, hmk]
                            show some (deepMerge (getOrEmpty (.obj xkvs) k) (JVal.obj vkvs))
                              = some (JVal.obj vkvs)
                            rw [hvm2']
                            exact congrArg some habs
                          · have hXo2 : isObjB (getOrEmpty (.obj xkvs) k) = false := by
                              simpa using hXo
                            have hprim : deepMergeEntries (getOrEmpty (.obj xkvs) k) ykvs2
                                = getOrEmpty (.obj xkvs) k :=
                              deepMergeEntries_prim ykvs2 _ hXo2
                            rw [hprim] at hvm2
                            rw [← hvm2] at hXo2
                            simp [isObjB] at hXo2

/-- Every modelled value is a dictionary node: the embedding has no arrays,
so the `typeof v === \x27object\x27 && !Array.isArray(v)` test can only refuse
nothing. -/
theorem isDict_always_aux : ∀ n : Nat,
    (∀ v : JVal, sizeOf v ≤ n → isDictNode v = true)
    ∧ (∀ kvs : List (String × JVal), sizeOf kvs ≤ n → isDictList kvs = true) := by
  intro n
  induction n with
  | zero =>
      constructor
      · intro v hv; cases v <;> simp at hv
      · intro kvs hk
        cases kvs with
        | nil => rfl
        | cons kv rest => simp at hk
  | succ n ih =>
      constructor
      · intro v hv
        cases v with
        | str s => rfl
        | num m => rfl
        | obj kvs =>
            show isDictList kvs = true
            apply ih.2
            simp at hv
            omega
      · intro kvs hk
        cases kvs with
        | nil => rfl
        | cons kv rest =>
            obtain ⟨k, v⟩ := kv
            show (isDictNode v && isDictList rest) = true
            simp at hk
            rw [ih.1 v (by omega), ih.2 rest (by omega)]
            rfl

theorem isDictNode_all (v : JVal) : isDictNode v = true :=
  (isDict_always_aux (sizeOf v)).1 v le_rfl

/-- C6: \x60deepMerge\x60 is right-biased — on matching paths the source\x27s
leaf values win while object nodes are merged key-by-key, so
\x60deepMerge(\x7ba:1,b:2\x7d,\x7bb:3,c:4\x7d)\x60 gives \x60\x7ba:1,b:3,c:4\x7d\x60 —
and absorptive/idempotent: for every pair of JavaScript objects \x60X\x60,
\x60Y\x60 (objects always have pairwise-distinct keys, which \x60wfKeys\x60
records in the embedding), \x60deepMerge(X, deepMerge(X,Y)) == deepMerge(X,Y)\x60. -/
theorem C6_deepMerge_right_biased_idempotent :
    (deepMerge (JVal.obj [("a", JVal.num 1), ("b", JVal.num 2)])
        (JVal.obj [("b", JVal.num 3), ("c", JVal.num 4)])
      = JVal.obj [("a", JVal.num 1), ("b", JVal.num 3), ("c", JVal.num 4)])
    ∧ ∀ (X Y : JVal), isObjB Y = true → wfKeys X = true → wfKeys Y = true →
        deepMerge X (deepMerge X Y) = deepMerge X Y := by
  constructor
  · decide
  · intro X Y hoY hwX hwY
    cases Y with
    | str s => simp [isObjB] at hoY
    | num m => simp [isObjB] at hoY
    | obj ykvs =>
        have hwp : nodupBy (keysOf ykvs) = true ∧ wfKeysList ykvs = true := by
          simpa [wfKeys] using hwY
        exact deepMerge_absorb_aux (sizeOf ykvs) ykvs X le_rfl (isDictNode_all X) hwX
          (by simpa [isDictNode] using isDictNode_all (JVal.obj ykvs)) hwp.1 hwp.2

/-- Witness for C6 at a concrete input. -/
theorem C6_deepMerge_right_biased_idempotent_witness :
    deepMerge (JVal.obj [("a", JVal.num 1), ("b", JVal.num 2)])
        (deepMerge (JVal.obj [("a", JVal.num 1), ("b", JVal.num 2)])
          (JVal.obj [("b", JVal.num 3), ("c", JVal.num 4)]))
      = deepMerge (JVal.obj [("a", JVal.num 1), ("b", JVal.num 2)])
          (JVal.obj [("b", JVal.num 3), ("c", JVal.num 4)]) :=
  C6_deepMerge_right_biased_idempotent.2
    (JVal.obj [("a", JVal.num 1), ("b", JVal.num 2)])
    (JVal.obj [("b", JVal.num 3), ("c", JVal.num 4)])
    (by decide) (by decide) (by decide)

/-! ### `findMissingKeys`: emptiness of the missing tree -/

theorem setKey_ne_nil {α : Type} (kvs : List (String × α)) (k : String) (v : α) :
    setKey kvs k v ≠ [] := by
  cases kvs with
  | nil => simp [setKey]
  | cons kv rest =>
      obtain ⟨k2, w⟩ := kv
      simp only [setKey]
      split <;> simp

theorem addAtPath_obj (path : List String) (kvs0 : List (String × JVal))
    (k : String) (v : JVal) :
    ∃ kvs1, addAtPath (JVal.obj kvs0) path k v = JVal.obj kvs1 ∧ kvs1 ≠ [] := by
  cases path with
  | nil => exact ⟨setKey kvs0 k v, rfl, setKey_ne_nil kvs0 k v⟩
  | cons p rest =>
      exact ⟨setKey kvs0 p (addAtPath (getOrEmpty (JVal.obj kvs0) p) rest k v), rfl,
        setKey_ne_nil _ _ _⟩

theorem fmkGo_nil (targ : JVal) (path : List String) (missing : JVal) :
    fmkGo [] targ path missing = missing := rfl

theorem fmkGo_cons_obj (k : String) (kvs2 rest : List (String × JVal)) (targ : JVal)
    (path : List String) (missing : JVal) :
    fmkGo ((k, JVal.obj kvs2) :: rest) targ path missing =
      fmkGo rest targ path
        (match jsGetOwn targ k with
         | none => addAtPath missing path k (JVal.obj kvs2)
         | some tv => fmkGo kvs2 tv (path ++ [k]) missing) := rfl

theorem fmkGo_cons_str (k : String) (sv : String) (rest : List (String × JVal))
    (targ : JVal) (path : List String) (missing : JVal) :
    fmkGo ((k, JVal.str sv) :: rest) targ path missing =
      fmkGo rest targ path
        (match jsGetOwn targ k with
         | none => addAtPath missing path k (JVal.str sv)
         | some _ => missing) := rfl

theorem fmkGo_cons_num (k : String) (mv : Nat) (rest : List (String × JVal))
    (targ : JVal) (path : List String) (missing : JVal) :
    fmkGo ((k, JVal.num mv) :: rest) targ path missing =
      fmkGo rest targ path
        (match jsGetOwn targ k with
         | none => addAtPath missing path k (JVal.num mv)
         | some _ => missing) := rfl

theorem coveredList_cons_obj (k : String) (kvs2 rest : List (String × JVal)) (t : JVal) :
    coveredList ((k, JVal.obj kvs2) :: rest) t =
      ((match jsGetOwn t k with
        | some tv => coveredList kvs2 tv
        | none => false) && coveredList rest t) := rfl

theorem coveredList_cons_str (k : String) (sv : String) (rest : List (String × JVal))
    (t : JVal) :
    coveredList ((k, JVal.str sv) :: rest) t =
      ((jsGetOwn t k).isSome && coveredList rest t) := rfl

theorem coveredList_cons_num (k : String) (mv : Nat) (rest : List (String × JVal))
    (t : JVal) :
    coveredList ((k, JVal.num mv) :: rest) t =
      ((jsGetOwn t k).isSome && coveredList rest t) := rfl

theorem pathExists_cons (k : String) (v : JVal) (rest : List (String × JVal))
    (k2 : String) (prest : List String) :
    pathExists (JVal.obj ((k, v) :: rest)) (k2 :: prest) =
      if k = k2 then pathExists v prest else pathExists (JVal.obj rest) (k2 :: prest) := by
  by_cases hk : k = k2
  · subst hk
    simp [pathExists, jlookup]
  · simp [pathExists, jlookup, hk]

theorem pathExists_obj (kvs : List (String × JVal)) (k2 : String) (prest : List String) :
    pathExists (JVal.obj kvs) (k2 :: prest) =
      (match jlookup kvs k2 with
       | some v => pathExists v prest
       | none => false) := rfl

/-- A fully covered entry list leaves the `missing` accumulator untouched. -/
theorem fmkGo_covered :
    ∀ (n : Nat) (rkvs : List (String × JVal)) (targ : JVal) (path : List String)
      (missing : JVal), sizeOf rkvs ≤ n → coveredList rkvs targ = true →
      fmkGo rkvs targ path missing = missing := by
  intro n
  induction n with
  | zero =>
      intro rkvs targ path missing hsz _
      cases rkvs with
      | nil => rfl
      | cons kv rest => simp at hsz
  | succ n ih =>
      intro rkvs targ path missing hsz hcov
      cases rkvs with
      | nil => rfl
      | cons kv rest =>
          obtain ⟨k, v⟩ := kv
          cases v with
          | obj kvs2 =>
              rw [fmkGo_cons_obj]
              rw [coveredList_cons_obj] at hcov
              cases hg : jsGetOwn targ k with
              | none => rw [hg] at hcov; simp at hcov
              | some tv =>
                  rw [hg] at hcov
                  have h1 : coveredList kvs2 tv = true ∧ coveredList rest targ = true := by
                    simpa using hcov
                  simp only [hg]
                  rw [ih kvs2 tv (path ++ [k]) missing (by simp at hsz; omega) h1.1]
                  exact ih rest targ path missing (by simp at hsz; omega) h1.2
          | str sv =>
              rw [fmkGo_cons_str]
              rw [coveredList_cons_str] at hcov
              have h1 : (jsGetOwn targ k).isSome = true ∧ coveredList rest targ = true := by
                simpa using hcov
              cases hg : jsGetOwn targ k with
              | none => rw [hg] at h1; simp at h1
              | some tv =>
                  simp only [hg]
                  exact ih rest targ path missing (by simp at hsz; omega) h1.2
          | num mv =>
              rw [fmkGo_cons_num]
              rw [coveredList_cons_num] at hcov
              have h1 : (jsGetOwn targ k).isSome = true ∧ coveredList rest targ = true := by
                simpa using hcov
              cases hg : jsGetOwn targ k with
              | none => rw [hg] at h1; simp at h1
              | some tv =>
                  simp only [hg]
                  exact ih rest targ path missing (by simp at hsz; omega) h1.2

/-- The walk keeps an object accumulator an object and never empties it. -/
theorem fmkGo_obj_pres :
    ∀ (n : Nat) (rkvs : List (String × JVal)) (targ : JVal) (path : List String)
      (kvs0 : List (String × JVal)), sizeOf rkvs ≤ n →
      ∃ kvs1, fmkGo rkvs targ path (JVal.obj kvs0) = JVal.obj kvs1
        ∧ (kvs0 ≠ [] → kvs1 ≠ []) := by
  intro n
  induction n with
  | zero =>
      intro rkvs targ path kvs0 hsz
      cases rkvs with
      | nil => exact ⟨kvs0, rfl, fun h => h⟩
      | cons kv rest => simp at hsz
  | succ n ih =>
      intro rkvs targ path kvs0 hsz
      cases rkvs with
      | nil => exact ⟨kvs0, rfl, fun h => h⟩
      | cons kv rest =>
          obtain ⟨k, v⟩ := kv
          cases v with
          | obj kvs2 =>
              rw [fmkGo_cons_obj]
              cases hg : jsGetOwn targ k with
              | none =>
                  simp only [hg]
                  obtain ⟨kvsA, hA, hAne⟩ := addAtPath_obj path kvs0 k (JVal.obj kvs2)
                  rw [hA]
                  obtain ⟨kvs1, h1, h1ne⟩ :=
                    ih rest targ path kvsA (by simp at hsz; omega)
                  exact ⟨kvs1, h1, fun _ => h1ne hAne⟩
              | some tv =>
                  simp only [hg]
                  obtain ⟨kvsA, hA, hAne⟩ :=
                    ih kvs2 tv (path ++ [k]) kvs0 (by simp at hsz; omega)
                  rw [hA]
                  obtain ⟨kvs1, h1, h1ne⟩ :=
                    ih rest targ path kvsA (by simp at hsz; omega)
                  exact ⟨kvs1, h1, fun h0 => h1ne (hAne h0)⟩
          | str sv =>
              rw [fmkGo_cons_str]
              cases hg : jsGetOwn targ k with
              | none =>
                  simp only [hg]
                  obtain ⟨kvsA, hA, hAne⟩ := addAtPath_obj path kvs0 k (JVal.str sv)
                  rw [hA]
                  obtain ⟨kvs1, h1, h1ne⟩ :=
                    ih rest targ path kvsA (by simp at hsz; omega)
                  exact ⟨kvs1, h1, fun _ => h1ne hAne⟩
              | some tv =>
                  simp only [hg]
                  exact ih rest targ path kvs0 (by simp at hsz; omega)
          | num mv =>
              rw [fmkGo_cons_num]
              cases hg : jsGetOwn targ k with
              | none =>
                  simp only [hg]
                  obtain ⟨kvsA, hA, hAne⟩ := addAtPath_obj path kvs0 k (JVal.num mv)
                  rw [hA]
                  obtain ⟨kvs1, h1, h1ne⟩ :=
                    ih rest targ path kvsA (by simp at hsz; omega)
                  exact ⟨kvs1, h1, fun _ => h1ne hAne⟩
              | some tv =>
                  simp only [hg]
                  exact ih rest targ path kvs0 (by simp at hsz; omega)

/-- An uncovered entry list makes the missing tree non-empty. -/
theorem fmkGo_uncovered :
    ∀ (n : Nat) (rkvs : List (String × JVal)) (targ : JVal) (path : List String)
      (kvs0 : List (String × JVal)), sizeOf rkvs ≤ n →
      coveredList rkvs targ = false →
      ∃ kvs1, fmkGo rkvs targ path (JVal.obj kvs0) = JVal.obj kvs1 ∧ kvs1 ≠ [] := by
  intro n
  induction n with
  | zero =>
      intro rkvs targ path kvs0 hsz hcov
      cases rkvs with
      | nil => simp [coveredList] at hcov
      | cons kv rest => simp at hsz
  | succ n ih =>
      intro rkvs targ path kvs0 hsz hcov
      cases rkvs with
      | nil => simp [coveredList] at hcov
      | cons kv rest =>
          obtain ⟨k, v⟩ := kv
          cases v with
          | obj kvs2 =>
              rw [coveredList_cons_obj] at hcov
              rw [fmkGo_cons_obj]
              cases hg : jsGetOwn targ k with
              | none =>
                  simp only [hg]
                  obtain ⟨kvsA, hA, hAne⟩ := addAtPath_obj path kvs0 k (JVal.obj kvs2)
                  rw [hA]
                  obtain ⟨kvs1, h1, hpres⟩ :=
                    fmkGo_obj_pres (sizeOf rest) rest targ path kvsA le_rfl
                  exact ⟨kvs1, h1, hpres hAne⟩
              | some tv =>
                  rw [hg] at hcov
                  simp only [hg]
                  cases hc2 : coveredList kvs2 tv with
                  | false =>
                      obtain ⟨kvsA, hA, hAne⟩ :=
                        ih kvs2 tv (path ++ [k]) kvs0 (by simp at hsz; omega) hc2
                      rw [hA]
                      obtain ⟨kvs1, h1, hpres⟩ :=
                        fmkGo_obj_pres (sizeOf rest) rest targ path kvsA le_rfl
                      exact ⟨kvs1, h1, hpres hAne⟩
                  | true =>
                      have hcr : coveredList rest targ = false := by
                        simpa [hc2] using hcov
                      rw [fmkGo_covered (sizeOf kvs2) kvs2 tv (path ++ [k]) _ le_rfl hc2]
                      exact ih rest targ path kvs0 (by simp at hsz; omega) hcr
          | str sv =>
              rw [coveredList_cons_str] at hcov
              rw [fmkGo_cons_str]
              cases hg : jsGetOwn targ k with
              | none =>
                  simp only [hg]
                  obtain ⟨kvsA, hA, hAne⟩ := addAtPath_obj path kvs0 k (JVal.str sv)
                  rw [hA]
                  obtain ⟨kvs1, h1, hpres⟩ :=
                    fmkGo_obj_pres (sizeOf rest) rest targ path kvsA le_rfl
                  exact ⟨kvs1, h1, hpres hAne⟩
              | some tv =>
                  rw [hg] at hcov
                  have hcr : coveredList rest targ = false := by simpa using hcov
                  simp only [hg]
                  exact ih rest targ path kvs0 (by simp at hsz; omega) hcr
          | num mv =>
              rw [coveredList_cons_num] at hcov
              rw [fmkGo_cons_num]
              cases hg : jsGetOwn targ k with
              | none =>
                  simp only [hg]
                  obtain ⟨kvsA, hA, hAne⟩ := addAtPath_obj path kvs0 k (JVal.num mv)
                  rw [hA]
                  obtain ⟨kvs1, h1, hpres⟩ :=
                    fmkGo_obj_pres (sizeOf rest) rest targ path kvsA le_rfl
                  exact ⟨kvs1, h1, hpres hAne⟩
              | some tv =>
                  rw [hg] at hcov
                  have hcr : coveredList rest targ = false := by simpa using hcov
                  simp only [hg]
                  exact ih rest targ path kvs0 (by simp at hsz; omega) hcr

/-- Dropping the head entry weakens the path-coverage hypothesis, provided
the head key does not reappear in the tail. -/
theorem paths_tail (k : String) (v : JVal) (rest : List (String × JVal)) (T : JVal)
    (hnd : (keysOf rest).contains k = false)
    (H : ∀ p, pathExists (JVal.obj ((k, v) :: rest)) p = true → pathExists T p = true) :
    ∀ p, pathExists (JVal.obj rest) p = true → pathExists T p = true := by
  intro p hp
  cases p with
  | nil => cases T <;> rfl
  | cons k2 prest =>
      have hk2mem : k2 ∈ keysOf rest := by
        rw [pathExists_obj] at hp
        cases hw : jlookup rest k2 with
        | none => rw [hw] at hp; simp at hp
        | some w => exact List.mem_map.mpr ⟨(k2, w), jlookup_mem rest k2 w hw, rfl⟩
      have hkne : k ≠ k2 := by
        intro he
        subst he
        have hcontains : (keysOf rest).contains k = true := List.elem_iff.mpr hk2mem
        rw [hnd] at hcontains
        exact absurd hcontains (by decide)
      exact H (k2 :: prest) (by rw [pathExists_cons, if_neg hkne]; exact hp)

/-- Coverage coincides with preservation of all key paths, on objects with
pairwise-distinct keys whose nested-object structure is compatible with the
target (no boxed-primitive probing). -/
theorem coveredList_iff_pathExists :
    ∀ (n : Nat) (rkvs tkvs : List (String × JVal)), sizeOf rkvs ≤ n →
    nodupBy (keysOf rkvs) = true → wfKeysList rkvs = true →
    compatList rkvs tkvs = true →
    (coveredList rkvs (JVal.obj tkvs) = true ↔
      ∀ p, pathExists (JVal.obj rkvs) p = true → pathExists (JVal.obj tkvs) p = true) := by
  intro n
  induction n with
  | zero =>
      intro rkvs tkvs hsz _ _ _
      cases rkvs with
      | nil =>
          constructor
          · intro _ p hp
            cases p with
            | nil => rfl
            | cons k2 prest => simp [pathExists, jlookup] at hp
          · intro _; rfl
      | cons kv rest => simp at hsz
  | succ n ihn =>
      intro rkvs tkvs hsz hnd hwf hcomp
      cases rkvs with
      | nil =>
          constructor
          · intro _ p hp
            cases p with
            | nil => rfl
            | cons k2 prest => simp [pathExists, jlookup] at hp
          · intro _; rfl
      | cons kv rest =>
          obtain ⟨k, v⟩ := kv
          have hnd2 : (keysOf rest).contains k = false ∧ nodupBy (keysOf rest) = true := by
            simpa [nodupBy, keysOf] using hnd
          have hwf2 : wfKeys v = true ∧ wfKeysList rest = true := by
            simpa [wfKeysList] using hwf
          cases v with
          | obj kvs2 =>
              have hcompHR : (match jlookup tkvs k with
                  | some tv => compat (JVal.obj kvs2) tv
                  | none => true) = true ∧ compatList rest tkvs = true := by
                simpa [compatList] using hcomp
              have IHr := ihn rest tkvs (by simp at hsz; omega) hnd2.2 hwf2.2 hcompHR.2
              cases hg : jlookup tkvs k with
              | none =>
                  constructor
                  · intro hcov
                    rw [coveredList_cons_obj] at hcov
                    simp only [jsGetOwn, hg] at hcov
                    simp at hcov
                  · intro H
                    have h1 : pathExists (JVal.obj ((k, JVal.obj kvs2) :: rest)) [k]
                        = true := by
                      rw [pathExists_cons, if_pos rfl]; rfl
                    have h2 := H [k] h1
                    rw [pathExists_obj] at h2
                    rw [hg] at h2
                    simp at h2
              | some tv =>
                  have hcpt : compat (JVal.obj kvs2) tv = true := by
                    have h0 := hcompHR.1
                    rw [hg] at h0
                    simpa using h0
                  obtain ⟨tkvs2, htv⟩ : ∃ tkvs2, tv = JVal.obj tkvs2 := by
                    cases tv with
                    | obj o => exact ⟨o, rfl⟩
                    | str s2 => simp [compat] at hcpt
                    | num m2 => simp [compat] at hcpt
                  subst htv
                  have hcpt2 : compatList kvs2 tkvs2 = true := by
                    simpa [compat] using hcpt
                  have hwfv : nodupBy (keysOf kvs2) = true ∧ wfKeysList kvs2 = true := by
                    simpa [wfKeys] using hwf2.1
                  have IHv := ihn kvs2 tkvs2 (by simp at hsz; omega) hwfv.1 hwfv.2 hcpt2
                  constructor
                  · intro hcov
                    rw [coveredList_cons_obj] at hcov
                    simp only [jsGetOwn, hg] at hcov
                    have h1 : coveredList kvs2 (JVal.obj tkvs2) = true
                        ∧ coveredList rest (JVal.obj tkvs) = true := by
                      simpa using hcov
                    intro p hp
                    cases p with
                    | nil => rfl
                    | cons k2 prest =>
                        rw [pathExists_cons] at hp
                        by_cases hk : k = k2
                        · subst hk
                          rw [if_pos rfl] at hp
                          rw [pathExists_obj]
                          rw [hg]
                          exact (IHv.mp h1.1) prest hp
                        · rw [if_neg hk] at hp
                          exact (IHr.mp h1.2) (k2 :: prest) hp
                  · intro H
                    have hcv : coveredList kvs2 (JVal.obj tkvs2) = true := by
                      apply IHv.mpr
                      intro p hp
                      have h1 : pathExists (JVal.obj ((k, JVal.obj kvs2) :: rest)) (k :: p)
                          = true := by
                        rw [pathExists_cons, if_pos rfl]; exact hp
                      have h2 := H (k :: p) h1
                      rw [pathExists_obj] at h2
                      rw [hg] at h2
                      exact h2
                    have hcr : coveredList rest (JVal.obj tkvs) = true :=
                      IHr.mpr (paths_tail k (JVal.obj kvs2) rest (JVal.obj tkvs) hnd2.1 H)
                    rw [coveredList_cons_obj]
                    simp only [jsGetOwn, hg]
                    simp [hcv, hcr]
          | str sv =>
              have hcompR : compatList rest tkvs = true := by
                simpa [compatList] using hcomp
              have IHr := ihn rest tkvs (by simp at hsz; omega) hnd2.2 hwf2.2 hcompR
              constructor
              · intro hcov
                rw [coveredList_cons_str] at hcov
                have h1 : (jsGetOwn (JVal.obj tkvs) k).isSome = true
                    ∧ coveredList rest (JVal.obj tkvs) = true := by
                  simpa using hcov
                obtain ⟨tv, hg⟩ := Option.isSome_iff_exists.mp h1.1
                intro p hp
                cases p with
                | nil => rfl
                | cons k2 prest =>
                    rw [pathExists_cons] at hp
                    by_cases hk : k = k2
                    · subst hk
                      rw [if_pos rfl] at hp
                      cases prest with
                      | nil =>
                          rw [pathExists_obj]
                          have hg2 : jlookup tkvs k = some tv := hg
                          rw [hg2]
                          cases tv <;> rfl
                      | cons p2 pr2 => simp [pathExists] at hp
                    · rw [if_neg hk] at hp
                      exact (IHr.mp h1.2) (k2 :: prest) hp
              · intro H
                have h1 : pathExists (JVal.obj ((k, JVal.str sv) :: rest)) [k] = true := by
                  rw [pathExists_cons, if_pos rfl]; rfl
                have h2 := H [k] h1
                have hsome : (jlookup tkvs k).isSome = true := by
                  rw [pathExists_obj] at h2
                  cases hw : jlookup tkvs k with
                  | none => rw [hw] at h2; simp at h2
                  | some w => rfl
                have hcr : coveredList rest (JVal.obj tkvs) = true :=
                  IHr.mpr (paths_tail k (JVal.str sv) rest (JVal.obj tkvs) hnd2.1 H)
                rw [coveredList_cons_str]
                simp only [jsGetOwn]
                simp [hsome, hcr]
          | num mv =>
              have hcompR : compatList rest tkvs = true := by
                simpa [compatList] using hcomp
              have IHr := ihn rest tkvs (by simp at hsz; omega) hnd2.2 hwf2.2 hcompR
              constructor
              · intro hcov
                rw [coveredList_cons_num] at hcov
                have h1 : (jsGetOwn (JVal.obj tkvs) k).isSome = true
                    ∧ coveredList rest (JVal.obj tkvs) = true := by
                  simpa using hcov
                obtain ⟨tv, hg⟩ := Option.isSome_iff_exists.mp h1.1
                intro p hp
                cases p with
                | nil => rfl
                | cons k2 prest =>
                    rw [pathExists_cons] at hp
                    by_cases hk : k = k2
                    · subst hk
                      rw [if_pos rfl] at hp
                      cases prest with
                      | nil =>
                          rw [pathExists_obj]
                          have hg2 : jlookup tkvs k = some tv := hg
                          rw [hg2]
                          cases tv <;> rfl
                      | cons p2 pr2 => simp [pathExists] at hp
                    · rw [if_neg hk] at hp
                      exact (IHr.mp h1.2) (k2 :: prest) hp
              · intro H
                have h1 : pathExists (JVal.obj ((k, JVal.num mv) :: rest)) [k] = true := by
                  rw [pathExists_cons, if_pos rfl]; rfl
                have h2 := H [k] h1
                have hsome : (jlookup tkvs k).isSome = true := by
                  rw [pathExists_obj] at h2
                  cases hw : jlookup tkvs k with
                  | none => rw [hw] at h2; simp at h2
                  | some w => rfl
                have hcr : coveredList rest (JVal.obj tkvs) = true :=
                  IHr.mpr (paths_tail k (JVal.num mv) rest (JVal.obj tkvs) hnd2.1 H)
                rw [coveredList_cons_num]
                simp only [jsGetOwn]
                simp [hsome, hcr]

/-- C5: the claimed equivalence is FALSE as stated.  Counterexample through
JavaScript string boxing: with reference \x7b"a": \x7b"0": "x"\x7d\x7d and target
\x7b"a": "y"\x7d, \x60findMissingKeys\x60 returns the empty object — the walk
recurses into the primitive "y", whose boxed form owns the index property
"0" — even though the reference\x27s leaf path a.0 does not exist in the
target with matching nesting. -/
theorem C5_empty_iff_leaf_paths_cex :
    findMissingKeys (JVal.obj [("a", JVal.obj [("0", JVal.str "x")])])
        (JVal.obj [("a", JVal.str "y")]) = JVal.obj []
    ∧ leafPathB (JVal.obj [("a", JVal.obj [("0", JVal.str "x")])]) ["a", "0"] = true
    ∧ pathExists (JVal.obj [("a", JVal.str "y")]) ["a", "0"] = false := by
  decide

/-- C5 (amended): on object-rooted dictionaries whose object keys are
pairwise distinct (every JavaScript object) and whose nested objects are
structurally compatible — the target never holds a primitive where the
reference holds an object, so string boxing is never probed —
\x60findMissingKeys(reference, target)\x60 is empty exactly when every key
path of the reference exists in the target with matching nesting. -/
theorem C5_empty_iff_paths_amended (ref targ : JVal)
    (ho1 : isObjB ref = true) (ho2 : isObjB targ = true)
    (hwf : wfKeys ref = true) (hcpt : compat ref targ = true) :
    (findMissingKeys ref targ = JVal.obj [] ↔
      ∀ p, pathExists ref p = true → pathExists targ p = true) := by
  cases ref with
  | str s => simp [isObjB] at ho1
  | num m => simp [isObjB] at ho1
  | obj rkvs =>
      cases targ with
      | str s => simp [isObjB] at ho2
      | num m => simp [isObjB] at ho2
      | obj tkvs =>
          have hwp : nodupBy (keysOf rkvs) = true ∧ wfKeysList rkvs = true := by
            simpa [wfKeys] using hwf
          have hcl : compatList rkvs tkvs = true := by simpa [compat] using hcpt
          have hbridge :=
            coveredList_iff_pathExists (sizeOf rkvs) rkvs tkvs le_rfl hwp.1 hwp.2 hcl
          constructor
          · intro hempty
            cases hcv : coveredList rkvs (JVal.obj tkvs) with
            | false =>
                obtain ⟨kvs1, h1, hne⟩ :=
                  fmkGo_uncovered (sizeOf rkvs) rkvs (JVal.obj tkvs) [] [] le_rfl hcv
                rw [show findMissingKeys (JVal.obj rkvs) (JVal.obj tkvs)
                    = fmkGo rkvs (JVal.obj tkvs) [] (JVal.obj []) from rfl] at hempty
                rw [h1] at hempty
                exact absurd (JVal.obj.inj hempty) hne
            | true => exact hbridge.mp hcv
          · intro H
            have hcv : coveredList rkvs (JVal.obj tkvs) = true := hbridge.mpr H
            show fmkGo rkvs (JVal.obj tkvs) [] (JVal.obj []) = JVal.obj []
            exact fmkGo_covered (sizeOf rkvs) rkvs (JVal.obj tkvs) [] (JVal.obj [])
              le_rfl hcv

/-- Witness for the amended C5 at a concrete input. -/
theorem C5_empty_iff_paths_amended_witness :
    (findMissingKeys (JVal.obj [("a", JVal.obj [("b", JVal.str "x")])])
        (JVal.obj [("a", JVal.obj [("b", JVal.str "y"), ("c", JVal.str "z")])])
      = JVal.obj [] ↔
      ∀ p, pathExists (JVal.obj [("a", JVal.obj [("b", JVal.str "x")])]) p = true →
        pathExists (JVal.obj [("a", JVal.obj [("b", JVal.str "y"), ("c", JVal.str "z")])])
          p = true) :=
  C5_empty_iff_paths_amended _ _ (by decide) (by decide) (by decide) (by decide)

/-! ### `findMissingKeys` sends only missing keys; `deepMerge` keeps manual entries -/

theorem leafPathB_nil (t : JVal) : leafPathB t [] = !(isObjB t) := by
  cases t <;> rfl

theorem leafPathB_obj (kvs : List (String × JVal)) (k : String) (q : List String) :
    leafPathB (JVal.obj kvs) (k :: q) =
      (match jlookup kvs k with
       | some w => leafPathB w q
       | none => false) := rfl

theorem valueAt_obj (kvs : List (String × JVal)) (k : String) (prest : List String) :
    valueAt (JVal.obj kvs) (k :: prest) =
      (match jlookup kvs k with
       | some v => valueAt v prest
       | none => none) := rfl

theorem getOrEmpty_obj (kvs : List (String × JVal)) (k : String) :
    getOrEmpty (JVal.obj kvs) k =
      (match jlookup kvs k with
       | some w => if truthy w then w else JVal.obj []
       | none => JVal.obj []) := rfl

theorem navOwn_cons (t : JVal) (k : String) (rest : List String) :
    navOwn t (k :: rest) =
      (match jsGetOwn t k with
       | some v => navOwn v rest
       | none => none) := rfl

theorem jsSet_obj (kvs : List (String × JVal)) (k : String) (v : JVal) :
    jsSet (JVal.obj kvs) k v = JVal.obj (setKey kvs k v) := rfl

theorem addAtPath_nil (m : JVal) (key : String) (v : JVal) :
    addAtPath m [] key v = jsSet m key v := rfl

theorem addAtPath_cons (m : JVal) (p : String) (prest : List String) (key : String)
    (v : JVal) :
    addAtPath m (p :: prest) key v
      = jsSet m p (addAtPath (getOrEmpty m p) prest key v) := rfl

/-- Every leaf path of the accumulator after one `addAtPath` is either an old
leaf path or lies below the freshly written `path ++ [key]`. -/
theorem addAtPath_leaf (path : List String) :
    ∀ (m : JVal) (key : String) (v : JVal) (q : List String),
    leafPathB (addAtPath m path key v) q = true →
    leafPathB m q = true ∨ ∃ q2, q = path ++ key :: q2 := by
  induction path with
  | nil =>
      intro m key v q h
      cases m with
      | str s => exact Or.inl h
      | num mm => exact Or.inl h
      | obj kvs =>
          rw [addAtPath_nil, jsSet_obj] at h
          cases q with
          | nil => rw [leafPathB_nil] at h; simp [isObjB] at h
          | cons k2 q2 =>
              by_cases hk : key = k2
              · subst hk
                exact Or.inr ⟨q2, rfl⟩
              · left
                rw [leafPathB_obj] at h
                rw [jlookup_setKey_ne kvs key k2 v hk] at h
                exact h
  | cons p prest ih =>
      intro m key v q h
      cases m with
      | str s => exact Or.inl h
      | num mm => exact Or.inl h
      | obj kvs =>
          rw [addAtPath_cons, jsSet_obj] at h
          cases q with
          | nil => rw [leafPathB_nil] at h; simp [isObjB] at h
          | cons k2 q2 =>
              by_cases hk : p = k2
              · subst hk
                rw [leafPathB_obj] at h
                rw [jlookup_setKey_self] at h
                have h2 : leafPathB (addAtPath (getOrEmpty (JVal.obj kvs) p) prest key v)
                    q2 = true := h
                rcases ih (getOrEmpty (JVal.obj kvs) p) key v q2 h2 with hl | ⟨q3, hq3⟩
                · left
                  rw [leafPathB_obj]
                  cases hlp : jlookup kvs p with
                  | none =>
                      rw [getOrEmpty_obj, hlp] at hl
                      exfalso
                      cases q2 with
                      | nil =>
                          have hl2 : leafPathB (JVal.obj []) [] = true := hl
                          rw [leafPathB_nil] at hl2; simp [isObjB] at hl2
                      | cons a b =>
                          have hl2 : leafPathB (JVal.obj []) (a :: b) = true := hl
                          rw [leafPathB_obj] at hl2; simp [jlookup] at hl2
                  | some w =>
                      rw [getOrEmpty_obj, hlp] at hl
                      by_cases htw : truthy w = true
                      · have hl2 : leafPathB w q2 = true := by
                          have : leafPathB (if truthy w then w else JVal.obj []) q2
                              = true := hl
                          rwa [if_pos htw] at this
                        exact hl2
                      · exfalso
                        have : leafPathB (if truthy w then w else JVal.obj []) q2
                            = true := hl
                        rw [if_neg htw] at this
                        cases q2 with
                        | nil => rw [leafPathB_nil] at this; simp [isObjB] at this
                        | cons a b => rw [leafPathB_obj] at this; simp [jlookup] at this
                · right
                  exact ⟨q3, by simp [hq3]⟩
              · left
                rw [leafPathB_obj] at h
                rw [jlookup_setKey_ne kvs p k2 _ hk] at h
                exact h

theorem navOwn_append (p1 : List String) :
    ∀ (t : JVal) (p2 : List String),
    navOwn t (p1 ++ p2) =
      (match navOwn t p1 with
       | some w => navOwn w p2
       | none => none) := by
  induction p1 with
  | nil => intro t p2; rfl
  | cons k p1r ih =>
      intro t p2
      rw [List.cons_append, navOwn_cons, navOwn_cons]
      cases hg : jsGetOwn t k with
      | none => simp only [hg]
      | some v => simp only [hg]; exact ih v p2

theorem pathExists_navOwn (q : List String) :
    ∀ (t : JVal), pathExists t q = true → (navOwn t q).isSome = true := by
  induction q with
  | nil => intro t _; rfl
  | cons k rest ih =>
      intro t hp
      cases t with
      | str s => simp [pathExists] at hp
      | num m => simp [pathExists] at hp
      | obj kvs =>
          rw [pathExists_obj] at hp
          cases hl : jlookup kvs k with
          | none => rw [hl] at hp; simp at hp
          | some v =>
              rw [hl] at hp
              rw [navOwn_cons]
              simp only [jsGetOwn, hl]
              exact ih v hp

theorem pathExists_prefix (p1 : List String) :
    ∀ (t : JVal) (p2 : List String),
    pathExists t (p1 ++ p2) = true → pathExists t p1 = true := by
  induction p1 with
  | nil => intro t p2 _; cases t <;> rfl
  | cons k p1r ih =>
      intro t p2 hp
      cases t with
      | str s => simp [pathExists] at hp
      | num m => simp [pathExists] at hp
      | obj kvs =>
          rw [List.cons_append, pathExists_obj] at hp
          rw [pathExists_obj]
          cases hl : jlookup kvs k with
          | none => rw [hl] at hp; simp at hp
          | some v =>
              rw [hl] at hp
              exact ih v p2 hp

/-- Walk invariant: if the current target pointer is reached from the root
target by own-property navigation along `path`, and no leaf path of the
accumulator exists in the root target, the same holds after the walk. -/
theorem fmkGo_leaf_inv :
    ∀ (n : Nat) (rkvs : List (String × JVal)) (targC : JVal) (path : List String)
      (missing : JVal) (targ : JVal), sizeOf rkvs ≤ n →
      navOwn targ path = some targC →
      (∀ q, leafPathB missing q = true → pathExists targ q = false) →
      ∀ q, leafPathB (fmkGo rkvs targC path missing) q = true →
        pathExists targ q = false := by
  intro n
  induction n with
  | zero =>
      intro rkvs targC path missing targ hsz hnav hgood
      cases rkvs with
      | nil => exact hgood
      | cons kv rest => simp at hsz
  | succ n ih =>
      intro rkvs targC path missing targ hsz hnav hgood
      cases rkvs with
      | nil => exact hgood
      | cons kv rest =>
          obtain ⟨k, v⟩ := kv
          have hkey : ∀ (w : JVal), jsGetOwn targC k = none →
              ∀ q, leafPathB (addAtPath missing path k w) q = true →
                pathExists targ q = false := by
            intro w hnone q hq
            rcases addAtPath_leaf path missing k w q hq with hl | ⟨q2, hq2⟩
            · exact hgood q hl
            · subst hq2
              cases hpe : pathExists targ (path ++ k :: q2) with
              | false => rfl
              | true =>
                  exfalso
                  have hpre : pathExists targ (path ++ [k]) = true := by
                    have hsplit : path ++ k :: q2 = (path ++ [k]) ++ q2 := by simp
                    rw [hsplit] at hpe
                    exact pathExists_prefix (path ++ [k]) targ q2 hpe
                  have hnv := pathExists_navOwn (path ++ [k]) targ hpre
                  rw [navOwn_append path targ [k], hnav] at hnv
                  have hnv2 : (navOwn targC [k]).isSome = true := hnv
                  rw [navOwn_cons, hnone] at hnv2
                  simp at hnv2
          cases v with
          | obj kvs2 =>
              rw [fmkGo_cons_obj]
              cases hg : jsGetOwn targC k with
              | none =>
                  simp only [hg]
                  exact ih rest targC path _ targ (by simp at hsz; omega) hnav (hkey _ hg)
              | some tv =>
                  simp only [hg]
                  have hnav2 : navOwn targ (path ++ [k]) = some tv := by
                    rw [navOwn_append path targ [k], hnav]
                    show navOwn targC [k] = some tv
                    rw [navOwn_cons, hg]
                    rfl
                  have hgood2 := ih kvs2 tv (path ++ [k]) missing targ
                    (by simp at hsz; omega) hnav2 hgood
                  exact ih rest targC path _ targ (by simp at hsz; omega) hnav hgood2
          | str sv =>
              rw [fmkGo_cons_str]
              cases hg : jsGetOwn targC k with
              | none =>
                  simp only [hg]
                  exact ih rest targC path _ targ (by simp at hsz; omega) hnav (hkey _ hg)
              | some tv =>
                  simp only [hg]
                  exact ih rest targC path missing targ (by simp at hsz; omega) hnav hgood
          | num mv =>
              rw [fmkGo_cons_num]
              cases hg : jsGetOwn targC k with
              | none =>
                  simp only [hg]
                  exact ih rest targC path _ targ (by simp at hsz; omega) hnav (hkey _ hg)
              | some tv =>
                  simp only [hg]
                  exact ih rest targC path missing targ (by simp at hsz; omega) hnav hgood

/-- No leaf path of the missing tree exists in the target: the walk only
copies keys the (navigated) target does not own. -/
theorem missing_leaves_not_in_target (ref targ : JVal) :
    ∀ q, leafPathB (findMissingKeys ref targ) q = true → pathExists targ q = false := by
  intro q hq
  refine fmkGo_leaf_inv (sizeOf (entriesOf ref)) (entriesOf ref) targ [] (JVal.obj [])
    targ le_rfl rfl ?_ q hq
  intro q2 hq2
  cases q2 with
  | nil => rw [leafPathB_nil] at hq2; simp [isObjB] at hq2
  | cons a b => rw [leafPathB_obj] at hq2; simp [jlookup] at hq2

/-- `deepMerge` preserves every truthy string leaf of the target whose path
is disjoint from the source\x27s leaf paths. -/
theorem deepMerge_preserves_truthy_str :
    ∀ (p : List String) (X Y : JVal) (s : String), wfKeys Y = true →
      (∀ q, leafPathB Y q = true → pathExists X q = false) →
      valueAt X p = some (JVal.str s) → s ≠ "" →
      valueAt (deepMerge X Y) p = some (JVal.str s) := by
  intro p
  induction p with
  | nil =>
      intro X Y s hw hsh hv hs
      cases X with
      | num m0 => exfalso; simp [valueAt] at hv
      | obj kvs0 => exfalso; simp [valueAt] at hv
      | str s0 =>
          have hs0 : s0 = s := by
            have h0 : JVal.str s0 = JVal.str s := by simpa [valueAt] using hv
            exact JVal.str.inj h0
          subst hs0
          cases Y with
          | obj ykvs =>
              show valueAt (deepMergeEntries (JVal.str s0) ykvs) [] = some (JVal.str s0)
              rw [deepMergeEntries_prim ykvs (JVal.str s0) (by simp [isObjB])]
              rfl
          | str s2 =>
              exfalso
              have h0 := hsh [] (by rw [leafPathB_nil]; simp [isObjB])
              simp [pathExists] at h0
          | num m2 =>
              exfalso
              have h0 := hsh [] (by rw [leafPathB_nil]; simp [isObjB])
              simp [pathExists] at h0
  | cons k prest ih =>
      intro X Y s hw hsh hv hs
      cases X with
      | str s0 => exfalso; simp [valueAt] at hv
      | num m0 => exfalso; simp [valueAt] at hv
      | obj xkvs =>
          have hv2 : ∃ w, jlookup xkvs k = some w ∧ valueAt w prest = some (JVal.str s) := by
            rw [valueAt_obj] at hv
            cases hlk : jlookup xkvs k with
            | none => rw [hlk] at hv; simp at hv
            | some w => rw [hlk] at hv; exact ⟨w, rfl, hv⟩
          obtain ⟨w, hlk, hvw⟩ := hv2
          cases Y with
          | str s2 =>
              exfalso
              have h0 := hsh [] (by rw [leafPathB_nil]; simp [isObjB])
              simp [pathExists] at h0
          | num m2 =>
              exfalso
              have h0 := hsh [] (by rw [leafPathB_nil]; simp [isObjB])
              simp [pathExists] at h0
          | obj ykvs =>
              have hnd : nodupBy (keysOf ykvs) = true ∧ wfKeysList ykvs = true := by
                simpa [wfKeys] using hw
              have hMobj := deepMergeEntries_isObj ykvs (JVal.obj xkvs) rfl
              obtain ⟨mkvs, hM⟩ : ∃ mkvs,
                  deepMergeEntries (JVal.obj xkvs) ykvs = JVal.obj mkvs := by
                cases hm : deepMergeEntries (JVal.obj xkvs) ykvs with
                | obj o => exact ⟨o, rfl⟩
                | str a => rw [hm] at hMobj; simp [isObjB] at hMobj
                | num a => rw [hm] at hMobj; simp [isObjB] at hMobj
              have hE := jlookupV_deepMergeEntries ykvs (JVal.obj xkvs) rfl hnd.1 k
              rw [hM] at hE
              have hE2 : jlookup mkvs k =
                  (match jlookup ykvs k with
                   | some (JVal.obj kvs2) =>
                       some (deepMergeEntries (getOrEmpty (JVal.obj xkvs) k) kvs2)
                   | some v => some v
                   | none => jlookupV (JVal.obj xkvs) k) := hE
              show valueAt (deepMergeEntries (JVal.obj xkvs) ykvs) (k :: prest)
                = some (JVal.str s)
              rw [hM, valueAt_obj]
              cases hyk : jlookup ykvs k with
              | none =>
                  rw [hyk] at hE2
                  rw [hE2]
                  rw [show jlookupV (JVal.obj xkvs) k = some w from hlk]
                  show valueAt w prest = some (JVal.str s)
                  exact hvw
              | some vy =>
                  cases vy with
                  | str sy =>
                      exfalso
                      have hlf : leafPathB (JVal.obj ykvs) [k] = true := by
                        rw [leafPathB_obj, hyk]
                        simp [leafPathB, isObjB]
                      have hpf := hsh [k] hlf
                      rw [pathExists_obj, hlk] at hpf
                      have hpf2 : pathExists w [] = false := hpf
                      cases w <;> simp [pathExists] at hpf2
                  | num my =>
                      exfalso
                      have hlf : leafPathB (JVal.obj ykvs) [k] = true := by
                        rw [leafPathB_obj, hyk]
                        simp [leafPathB, isObjB]
                      have hpf := hsh [k] hlf
                      rw [pathExists_obj, hlk] at hpf
                      have hpf2 : pathExists w [] = false := hpf
                      cases w <;> simp [pathExists] at hpf2
                  | obj ykvs2 =>
                      rw [hyk] at hE2
                      rw [hE2]
                      show valueAt (deepMergeEntries (getOrEmpty (JVal.obj xkvs) k) ykvs2)
                          prest = some (JVal.str s)
                      have htw : truthy w = true := by
                        cases prest with
                        | nil =>
                            have hws : w = JVal.str s := by
                              have h0 : JVal.str s = w := by
                                have := hvw
                                cases w with
                                | str a => simpa [valueAt] using this.symm
                                | num a => simp [valueAt] at this
                                | obj a => simp [valueAt] at this
                              exact h0.symm
                            rw [hws]
                            simp [truthy, hs]
                        | cons a b =>
                            cases w with
                            | obj o => rfl
                            | str a => simp [valueAt] at hvw
                            | num a => simp [valueAt] at hvw
                      have hge : getOrEmpty (JVal.obj xkvs) k = w := by
                        rw [getOrEmpty_obj, hlk]
                        show (if truthy w = true then w else JVal.obj []) = w
                        rw [if_pos htw]
                      rw [hge]
                      apply ih w (JVal.obj ykvs2) s
                      · exact wfKeysList_lookup ykvs k _ hnd.2 hyk
                      · intro q hq
                        have hlf : leafPathB (JVal.obj ykvs) (k :: q) = true := by
                          rw [leafPathB_obj, hyk]
                          exact hq
                        have hpf := hsh (k :: q) hlf
                        rw [pathExists_obj, hlk] at hpf
                        exact hpf
                      · exact hvw
                      · exact hs

/-- C1: FALSE as stated for the repository\x27s `makeMultilingual.js` path.
`autoTranslateCommonJson` sends EVERY truthy string key of the default
dictionary for translation — here both "greeting" and "farewell", although
the target already holds "greeting" — and its spread merge
\x7b ...existing, ...translated \x7d overwrites the target\x27s existing manual
translation "Hello" with the fresh AI translation "Bonjour". -/
theorem C1_sync_only_missing_preserved_cex :
    sentKeys [("greeting", JVal.str "Hola"), ("farewell", JVal.str "Adios")]
      = ["greeting", "farewell"]
    ∧ jlookup (autoTranslateMergedDict
        (fun _ => TransResult.ok (some "Bonjour"))
        [("greeting", JVal.str "Hello")]
        [("greeting", JVal.str "Hola"), ("farewell", JVal.str "Adios")]) "greeting"
      = some (JVal.str "Bonjour") := by
  decide

/-- C1 (amended), for the stand-alone synchronizer (part_002): (i) the tree
sent for translation, `findMissingKeys(reference, target)`, contains only
keys missing from the target — none of its leaf paths exists in the target;
(ii) if the translated reply keeps the shape of the sent tree, deep-merging
it back preserves every existing truthy string leaf of the target verbatim
(a falsy `""` leaf can be clobbered through the `target[key] || \x7b\x7d`
idiom, and `autoTranslateCommonJson` of `makeMultilingual.js` satisfies
neither part — see the counterexample). -/
theorem C1_sync_missing_only_and_preserves_amended (ref targ T : JVal)
    (hwT : wfKeys T = true)
    (hshape : ∀ q, leafPathB T q = true → leafPathB (findMissingKeys ref targ) q = true) :
    (∀ q, leafPathB (findMissingKeys ref targ) q = true → pathExists targ q = false)
    ∧ ∀ p s, valueAt targ p = some (JVal.str s) → s ≠ "" →
        valueAt (deepMerge targ T) p = some (JVal.str s) := by
  refine ⟨missing_leaves_not_in_target ref targ, ?_⟩
  intro p s hv hs
  exact deepMerge_preserves_truthy_str p targ T s hwT
    (fun q hq => missing_leaves_not_in_target ref targ q (hshape q hq)) hv hs

/-- Witness for the amended C1 at the spec\x27s scenario-2 input: reference
\x7bgreeting: "Hola", farewell: "Adios"\x7d, target \x7bgreeting: "Hello"\x7d, reply
\x7bfarewell: "Goodbye"\x7d (the translated missing tree). -/
theorem C1_sync_missing_only_and_preserves_amended_witness :
    (∀ q, leafPathB (findMissingKeys
        (JVal.obj [("greeting", JVal.str "Hola"), ("farewell", JVal.str "Adios")])
        (JVal.obj [("greeting", JVal.str "Hello")])) q = true →
      pathExists (JVal.obj [("greeting", JVal.str "Hello")]) q = false)
    ∧ ∀ p s, valueAt (JVal.obj [("greeting", JVal.str "Hello")]) p
          = some (JVal.str s) → s ≠ "" →
        valueAt (deepMerge (JVal.obj [("greeting", JVal.str "Hello")])
          (JVal.obj [("farewell", JVal.str "Goodbye")])) p = some (JVal.str s) :=
  C1_sync_missing_only_and_preserves_amended
    (JVal.obj [("greeting", JVal.str "Hola"), ("farewell", JVal.str "Adios")])
    (JVal.obj [("greeting", JVal.str "Hello")])
    (JVal.obj [("farewell", JVal.str "Goodbye")])
    (by decide)
    (fun q hq => by
      rw [show findMissingKeys
          (JVal.obj [("greeting", JVal.str "Hola"), ("farewell", JVal.str "Adios")])
          (JVal.obj [("greeting", JVal.str "Hello")])
          = JVal.obj [("farewell", JVal.str "Adios")] from by decide]
      cases q with
      | nil => rw [leafPathB_nil] at hq; simp [isObjB] at hq
      | cons a b =>
          rw [leafPathB_obj] at hq
          cases hl : jlookup [("farewell", JVal.str "Goodbye")] a with
          | none => rw [hl] at hq; simp at hq
          | some w =>
              rw [hl] at hq
              have hfa : a = "farewell" ∧ w = JVal.str "Goodbye" := by
                by_cases ha : "farewell" = a
                · refine ⟨ha.symm, ?_⟩
                  simp [jlookup, ha] at hl
                  exact hl.symm
                · simp [jlookup, ha] at hl
              obtain ⟨ha, hww⟩ := hfa
              subst ha
              subst hww
              rw [leafPathB_obj]
              show leafPathB (JVal.str "Adios") b = true
              cases b with
              | nil => rfl
              | cons c d =>
                  have hq2 : leafPathB (JVal.str "Goodbye") (c :: d) = true := hq
                  simp [leafPathB] at hq2)

end I18n
